import Mathlib

set_option maxHeartbeats 1000000

namespace HMAR

/-! Shallow embedding of `src/models/quant.py` (VectorQuantizer2 of the HMAR
repository).  Machine floats are modelled as exact rationals; torch library
primitives (interpolation, normalize, convolution `Phi`, all-reduce,
`torch.multinomial`) are external collaborators and enter as parameters of an
`Ops` record, with their shape contracts stated as the proposition `OpsWF`.
A concrete executable instance `concreteOps` is provided for witnesses. -/

/-- Torch floating dtypes relevant to the quantizer. -/
inductive DType
  | float32
  | float16
  | bfloat16
  | float64
  deriving DecidableEq

/-- A rank-4 torch tensor `(B, C, H, W)` in row-major layout; entries are kept
as exact rationals. -/
structure Tensor4 where
  nB : ℕ
  nC : ℕ
  nH : ℕ
  nW : ℕ
  dt : DType
  data : List ℚ
  deriving DecidableEq

/-- Number of elements announced by the shape of the tensor. -/
def Tensor4.numel (t : Tensor4) : ℕ := t.nB * t.nC * (t.nH * t.nW)

/-- Pointwise tensor addition (shape taken from the left operand, as for a
checked `torch.add` on equal shapes). -/
def tadd (a b : Tensor4) : Tensor4 :=
  ⟨a.nB, a.nC, a.nH, a.nW, a.dt, List.zipWith (· + ·) a.data b.data⟩

/-- Pointwise tensor subtraction. -/
def tsub (a b : Tensor4) : Tensor4 :=
  ⟨a.nB, a.nC, a.nH, a.nW, a.dt, List.zipWith (· - ·) a.data b.data⟩

/-- `torch.zeros_like`. -/
def zerosLike (t : Tensor4) : Tensor4 :=
  ⟨t.nB, t.nC, t.nH, t.nW, t.dt, List.replicate t.numel 0⟩

/-- Dot product of two rational vectors. -/
def dotQ (a b : List ℚ) : ℚ := (List.zipWith (· * ·) a b).sum

/-- Sum of squares of a rational vector. -/
def sqSum (a : List ℚ) : ℚ := (a.map (fun x => x * x)).sum

/-- The distance expression `||x||^2 + ||e||^2 - 2 x eᵀ` computed by
`d_no_grad` in `VectorQuantizer2.forward` / `f_to_idxBl_or_fhat`. -/
def sqDistQ (x e : List ℚ) : ℚ := sqSum x + sqSum e - 2 * dotQ x e

/-- First index attaining the minimum of a list (documented behaviour of
`np.argmin` / `torch.argmin`: ties resolve to the first minimal value). -/
def firstArgmin (l : List ℚ) : ℕ :=
  match l.min? with
  | none => 0
  | some m => l.findIdx (fun x => decide (x = m))

/-- First index attaining the maximum of a list (`torch.argmax` on ties,
deterministic first occurrence). -/
def firstArgmax (l : List ℚ) : ℕ :=
  match l.max? with
  | none => 0
  | some m => l.findIdx (fun x => decide (x = m))

/-- `np.linspace a b k`: `k` evenly spaced samples from `a` to `b`. -/
def linspace (a b : ℚ) (k : ℕ) : List ℚ :=
  (List.range k).map (fun i : ℕ => a + (b - a) * (i : ℚ) / ((k : ℚ) - 1))

/-- The tick array of `PhiPartiallyShared` / `PhiNonShared`
(`quant.py` lines 466-470): `linspace (1/(3K)) (1-1/(3K)) K` when `K = 4`,
else `linspace (1/(2K)) (1-1/(2K)) K`. -/
def phiTicks (k : ℕ) : List ℚ :=
  if k = 4 then linspace (1 / (3 * (k : ℚ))) (1 - 1 / (3 * (k : ℚ))) k
  else linspace (1 / (2 * (k : ℚ))) (1 - 1 / (2 * (k : ℚ))) k

/-- Unit lookup of `PhiPartiallyShared.__getitem__`
(`np.argmin(np.abs(ticks - at))`). -/
def phiSharedIdx (k : ℕ) (t : ℚ) : ℕ :=
  firstArgmin ((phiTicks k).map (fun c => |c - t|))

/-- One EMA histogram-row update of `VectorQuantizer2.forward`
(`quant.py` lines 163-168), driven by the `record_hit` counter. -/
def emaUpdateRow (rh : ℕ) (old new : List ℚ) : List ℚ :=
  if rh = 0 then new
  else if rh < 100 then
    List.zipWith (fun o n => o * (9 / 10) + n * (1 / 10)) old new
  else
    List.zipWith (fun o n => o * (99 / 100) + n * (1 / 100)) old new

/-- `idx_N.bincount(minlength=vocab_size).float()`. -/
def bincountQ (idx : List ℕ) (v : ℕ) : List ℚ :=
  (List.range v).map (fun c => ((idx.count c : ℕ) : ℚ))

/-- `F.mse_loss a b` with mean reduction. -/
def mseQ (a b : List ℚ) : ℚ :=
  (List.zipWith (fun x y => (x - y) * (x - y)) a b).sum / (a.length : ℚ)

/-- Mean of a rational list (`.mean().item()`). -/
def listMean (l : List ℚ) : ℚ := l.sum / (l.length : ℚ)

/-- The learned state of `VectorQuantizer2` used by its methods: vocabulary
size, channel width `Cvae`, distance policy flag, the scale pyramid
`v_patch_nums`, the commit weight `beta`, and the embedding table (one
`Cvae`-vector per code). -/
structure VQ where
  vocabSize : ℕ
  cvae : ℕ
  usingZnorm : Bool
  vPatchNums : List ℕ
  beta : ℚ
  embedding : List (List ℚ)
  deriving DecidableEq

/-- External torch/numpy collaborators of the quantizer: `F.interpolate`
(area and bicubic modes), `F.normalize`, the learned `Phi` refinement unit
addressed by a rational scale position, the distributed all-reduce,
`dist world size`, and `torch.multinomial(ones n, k, replacement=False)`. -/
structure Ops where
  interpArea : Tensor4 → ℕ → ℕ → Tensor4
  interpBicubic : Tensor4 → ℕ → ℕ → Tensor4
  normRow : List ℚ → List ℚ
  phi : ℚ → Tensor4 → Tensor4
  allReduce : List ℚ → List ℚ
  worldSize : ℕ
  multinomial : ℕ → ℕ → List ℕ

/-- Python-level failures of the quantizer entry points: an `assert`
statement firing versus a runtime error raised by a tensor operation
(failing `view` / shape mismatch). -/
inductive PErr
  | assertionError
  | runtimeError
  deriving DecidableEq

instance {ε α : Type} [DecidableEq ε] [DecidableEq α] : DecidableEq (Except ε α) := fun a b =>
  match a, b with
  | .error e, .error f =>
    if h : e = f then .isTrue (by rw [h]) else .isFalse (fun hc => h (by cases hc; rfl))
  | .error _, .ok _ => .isFalse (fun hc => Except.noConfusion hc)
  | .ok _, .error _ => .isFalse (fun hc => Except.noConfusion hc)
  | .ok x, .ok y =>
    if h : x = y then .isTrue (by rw [h]) else .isFalse (fun hc => h (by cases hc; rfl))

/-- The rows of `t.permute(0,2,3,1).reshape(-1, C)`: one channel vector per
`(b, h, w)` position, in row-major `(b, h, w)` order. -/
def rowsOf (t : Tensor4) : List (List ℚ) :=
  (List.range (t.nB * (t.nH * t.nW))).map (fun r =>
    (List.range t.nC).map (fun c =>
      t.data.getD ((r / (t.nH * t.nW)) * (t.nC * (t.nH * t.nW)) + c * (t.nH * t.nW)
        + r % (t.nH * t.nW)) 0))

/-- Euclidean nearest-code lookup (`torch.argmin` over
`||x||^2 + ||e||^2 - 2 x eᵀ`). -/
def lookupEuclid (emb : List (List ℚ)) (rows : List (List ℚ)) : List ℕ :=
  rows.map (fun r => firstArgmin (emb.map (fun e => sqDistQ r e)))

/-- Cosine nearest-code lookup (`torch.argmax` of normalized dot products);
`F.normalize` stays abstract as `normRow`. -/
def lookupCos (normRow : List ℚ → List ℚ) (emb : List (List ℚ))
    (rows : List (List ℚ)) : List ℕ :=
  rows.map (fun r => firstArgmax ((emb.map normRow).map (fun e => dotQ (normRow r) e)))

/-- `self.embedding(idx_Bhw).permute(0,3,1,2)`: embedding lookup of a
`(B, pn, pn)` index map laid out as a `(B, Cvae, pn, pn)` tensor; embedding
weights are float32. -/
def embedToTensor (cv : ℕ) (emb : List (List ℚ)) (idx : List ℕ) (b pn : ℕ) : Tensor4 :=
  ⟨b, cv, pn, pn, DType.float32,
   (List.range (b * cv * (pn * pn))).map (fun i =>
     (emb.getD (idx.getD ((i / (cv * (pn * pn))) * (pn * pn) + i % (pn * pn)) 0) []).getD
       ((i / (pn * pn)) % cv) 0)⟩

/-- Nearest-embedding index selection of one scale of
`VectorQuantizer2.forward` / `f_to_idxBl_or_fhat` (`quant.py` lines 109-139
and 261-281): area-downsample the residual unless at the last scale, then
look codes up with the configured distance policy. -/
def scaleIdx (ops : Ops) (q : VQ) (fRest : Tensor4) (si sn pn : ℕ) : List ℕ :=
  let rows := if si ≠ sn - 1 then rowsOf (ops.interpArea fRest pn pn) else rowsOf fRest
  if q.usingZnorm then lookupCos ops.normRow q.embedding rows
  else lookupEuclid q.embedding rows

/-- Mutable state threaded through the scale loop of
`VectorQuantizer2.forward`: the residual, the running reconstruction, the
local hit accumulator `vocab_hit_V`, the loss accumulator, and the module
buffers `ema_vocab_hit_SV` / `record_hit`. -/
structure FState where
  fRest : Tensor4
  fHat : Tensor4
  vocabHit : List ℚ
  lossAcc : ℚ
  ema : List (List ℚ)
  recordHit : ℕ
  deriving DecidableEq

/-- One iteration of the scale loop of `VectorQuantizer2.forward`
(`quant.py` lines 108-173): nearest-code lookup, hit counting, embedding
lookup + bicubic upsample + `Phi` refinement, accumulate/subtract, EMA
update (only when `training` and distributed mode is initialized), and the
two per-scale loss terms.  The `view` of the index map and the in-place
`add_` raise runtime errors on shape mismatch. -/
def forwardStep (ops : Ops) (q : VQ) (training distInit : Bool) (fD : List ℚ)
    (hh ww sn : ℕ) (si pn : ℕ) (st : FState) : Except PErr FState :=
  let idxN := scaleIdx ops q st.fRest si sn pn
  let hitV := bincountQ idxN q.vocabSize
  if idxN.length ≠ st.fRest.nB * (pn * pn) then .error .runtimeError
  else
    let hT := embedToTensor q.cvae q.embedding idxN st.fRest.nB pn
    let h1 := if si ≠ sn - 1 then ops.interpBicubic hT hh ww else hT
    let h2 := ops.phi ((si : ℚ) / ((sn : ℚ) - 1)) h1
    if ¬ (h2.nB = st.fHat.nB ∧ h2.nC = st.fHat.nC ∧ h2.nH = st.fHat.nH ∧ h2.nW = st.fHat.nW)
    then .error .runtimeError
    else
      let fHat' := tadd st.fHat h2
      let upd :=
        if training ∧ distInit then
          (st.ema.set si (emaUpdateRow st.recordHit (st.ema.getD si []) (ops.allReduce hitV)),
           st.recordHit + 1)
        else (st.ema, st.recordHit)
      .ok { fRest := tsub st.fRest h2
            fHat := fHat'
            vocabHit := List.zipWith (· + ·) st.vocabHit hitV
            lossAcc := st.lossAcc + mseQ fHat'.data fD * q.beta + mseQ fHat'.data fD
            ema := upd.1
            recordHit := upd.2 }

/-- The scale loop of `VectorQuantizer2.forward`, small to large scales. -/
def forwardScales (ops : Ops) (q : VQ) (training distInit : Bool) (fD : List ℚ)
    (hh ww sn : ℕ) : ℕ → List ℕ → FState → Except PErr FState
  | _, [], st => .ok st
  | si, pn :: rest, st =>
    match forwardStep ops q training distInit fD hh ww sn si pn st with
    | .error e => .error e
    | .ok st' => forwardScales ops q training distInit fD hh ww sn (si + 1) rest st'

/-- `f_BChw.float()` when the input dtype is not float32 (`quant.py`
lines 93-95); float-to-float32 conversion of small-width floats is exact,
so the values are unchanged. -/
def castF32 (t : Tensor4) : Tensor4 :=
  if t.dt ≠ DType.float32 then { t with dt := DType.float32 } else t

/-- `VectorQuantizer2.forward` (`quant.py` lines 90-192): returns the
straight-through reconstruction, the optional per-scale utilization list,
the mean loss, and the updated `ema_vocab_hit_SV` / `record_hit` buffers. -/
def forward (ops : Ops) (q : VQ) (training distInit : Bool) (f0 : Tensor4)
    (retUsages : Bool) (ema0 : List (List ℚ)) (rh0 : ℕ) :
    Except PErr (Tensor4 × Option (List ℚ) × ℚ × List (List ℚ) × ℕ) :=
  let f := castF32 f0
  let sn := q.vPatchNums.length
  let st0 : FState :=
    { fRest := f, fHat := zerosLike f, vocabHit := List.replicate q.vocabSize 0,
      lossAcc := 0, ema := ema0, recordHit := rh0 }
  match forwardScales ops q training distInit f.data f.nH f.nW sn 0 q.vPatchNums st0 with
  | .error e => .error e
  | .ok st =>
    let loss := st.lossAcc * (1 / (sn : ℚ))
    let out := tadd (tsub st.fHat f) f
    let margin := (ops.worldSize : ℚ) * ((f.numel : ℚ) / (f.nC : ℚ)) / (q.vocabSize : ℚ) * (2 / 25)
    let usages :=
      if retUsages then
        some ((List.range sn).map (fun si =>
          listMean ((st.ema.getD si []).map (fun x => if margin ≤ x then (1 : ℚ) else 0)) * 100))
      else none
    .ok (out, usages, loss, st.ema, st.recordHit)

/-- Per-scale output of `f_to_idxBl_or_fhat`: either a cumulative
reconstruction clone or the flat index tensor of the scale. -/
inductive FOut
  | fhatT (t : Tensor4)
  | idxT (l : List ℕ)
  deriving DecidableEq

/-- The scale loop of `f_to_idxBl_or_fhat` (`quant.py` lines 260-298). -/
def fToScales (ops : Ops) (q : VQ) (hh ww sn : ℕ) (toFhat : Bool) :
    ℕ → List ℕ → Tensor4 → Tensor4 → List FOut → Except PErr (List FOut)
  | _, [], _, _, acc => .ok acc
  | si, pn :: rest, fRest, fHat, acc =>
    let idxN := scaleIdx ops q fRest si sn pn
    if idxN.length ≠ fRest.nB * (pn * pn) then .error .runtimeError
    else
      let hT := embedToTensor q.cvae q.embedding idxN fRest.nB pn
      let h1 := if si ≠ sn - 1 then ops.interpBicubic hT hh ww else hT
      let h2 := ops.phi ((si : ℚ) / ((sn : ℚ) - 1)) h1
      if ¬ (h2.nB = fHat.nB ∧ h2.nC = fHat.nC ∧ h2.nH = fHat.nH ∧ h2.nW = fHat.nW)
      then .error .runtimeError
      else
        fToScales ops q hh ww sn toFhat (si + 1) rest (tsub fRest h2) (tadd fHat h2)
          (acc ++ [if toFhat then .fhatT (tadd fHat h2) else .idxT idxN])

/-- The scale pyramid in effect for `f_to_idxBl_or_fhat`: the caller-supplied
one, or the module default when the argument is `None` or empty (Python
`v_patch_nums or self.v_patch_nums`). -/
def effPatch (q : VQ) (vpnOpt : Option (List ℕ)) : List ℕ :=
  match vpnOpt with
  | none => q.vPatchNums
  | some l => if l = [] then q.vPatchNums else l

/-- `VectorQuantizer2.f_to_idxBl_or_fhat` (`quant.py` lines 236-300): the
assert `patch_hws[-1] == (H, W)` fires before any scale is processed; an
empty pyramid raises the `patch_hws[-1]` index error. -/
def fToIdxBlOrFhat (ops : Ops) (q : VQ) (f : Tensor4) (toFhat : Bool)
    (vpnOpt : Option (List ℕ)) : Except PErr (List FOut) :=
  let patchHws := effPatch q vpnOpt
  match patchHws.getLast? with
  | none => .error .runtimeError
  | some pl =>
    if pl = f.nH ∧ pl = f.nW then
      fToScales ops q f.nH f.nW patchHws.length toFhat 0 patchHws f (zerosLike f) []
    else .error .assertionError

/-- The zero tensor `gt_ms_idx_Bl[0].new_zeros(B, C, H, W, dtype=float32)`. -/
def nsInit (q : VQ) (b hh : ℕ) : Tensor4 :=
  ⟨b, q.cvae, hh, hh, DType.float32, List.replicate (b * q.cvae * (hh * hh)) 0⟩

/-- The loop of `idxBl_to_ns_input` (`quant.py` lines 313-327): embed the
ground-truth indices of scale `si`, bicubic-upsample to full resolution,
refine, accumulate into `f_hat`, and emit `f_hat` area-downsampled to the
next scale; the fuel argument counts the remaining iterations. -/
def nsSegsAux (ops : Ops) (q : VQ) (gt : List (List ℕ)) (b hh sn : ℕ) :
    ℕ → ℕ → Tensor4 → List Tensor4
  | 0, _, _ => []
  | n + 1, si, fhat =>
    let pnCur := q.vPatchNums.getD si 0
    let pnNext := q.vPatchNums.getD (si + 1) 0
    let h1 := ops.interpBicubic (embedToTensor q.cvae q.embedding (gt.getD si []) b pnCur) hh hh
    let fhat' := tadd fhat (ops.phi ((si : ℚ) / ((sn : ℚ) - 1)) h1)
    ops.interpArea fhat' pnNext pnNext :: nsSegsAux ops q gt b hh sn n (si + 1) fhat'

/-- The list `next_scales` of `idxBl_to_ns_input` (before concatenation),
each element still in `(B, C, pn, pn)` layout. -/
def nsSegs (ops : Ops) (q : VQ) (b : ℕ) (gt : List (List ℕ)) : List Tensor4 :=
  let hh := q.vPatchNums.getLast?.getD 0
  let sn := q.vPatchNums.length
  nsSegsAux ops q gt b hh sn (sn - 1) 0 (nsInit q b hh)

/-- The token sequence of one batch element of a `(B, C, pn, pn)` tensor
after `.view(B, C, -1).transpose(1, 2)`: one `C`-vector per position. -/
def tokensOf (t : Tensor4) (b : ℕ) : List (List ℚ) :=
  (List.range (t.nH * t.nW)).map (fun l =>
    (List.range t.nC).map (fun c =>
      t.data.getD (b * (t.nC * (t.nH * t.nW)) + c * (t.nH * t.nW) + l) 0))

/-- Row `b` of `torch.cat(next_scales, dim=1)`: the concatenated
teacher-forcing token sequence of batch element `b`
(`idxBl_to_ns_input`, `quant.py` line 330). -/
def nsRow (ops : Ops) (q : VQ) (b : ℕ) (gt : List (List ℕ)) (bi : ℕ) : List (List ℚ) :=
  ((nsSegs ops q b gt).map (fun t => tokensOf t bi)).flatten

/-- Token offset of the query for scale `i` inside the concatenated
teacher-forcing sequence: the total token count of the queries for scales
`1 .. i-1`. -/
def nsOffset (q : VQ) (i : ℕ) : ℕ :=
  ((List.range (i - 1)).map (fun j =>
    q.vPatchNums.getD (j + 1) 0 * q.vPatchNums.getD (j + 1) 0)).sum

/-- The loop of `idxBl_to_mask_input` (`quant.py` lines 355-389), iterating
`si = 1 .. SN-1` with the running global offset `cur_l`: sample
`ceil(pn*pn*p)` positions without replacement, shift them by `cur_l`, and
build the per-scale contribution from the scale's own ground-truth
embedding (no accumulation across scales). -/
def maskLoop (ops : Ops) (q : VQ) (gt : List (List ℕ)) (b hh sn : ℕ) (p : ℚ) :
    ℕ → ℕ → ℕ → List Tensor4 × List (List ℕ)
  | 0, _, _ => ([], [])
  | n + 1, si, curl =>
    let pn := q.vPatchNums.getD si 0
    let ntok := pn * pn
    let k := Nat.ceil ((ntok : ℚ) * p)
    let ids := (ops.multinomial ntok k).map (· + curl)
    let h1 := ops.interpBicubic (embedToTensor q.cvae q.embedding (gt.getD si []) b pn) hh hh
    let seg := ops.interpArea (ops.phi ((si : ℚ) / ((sn : ℚ) - 1)) h1) pn pn
    let rest := maskLoop ops q gt b hh sn p n (si + 1) (curl + ntok)
    (seg :: rest.1, ids :: rest.2)

/-- The `next_scales` list of `idxBl_to_mask_input` (one `(B, C, pn, pn)`
tensor per scale `1 .. SN-1`). -/
def maskSegs (ops : Ops) (q : VQ) (b : ℕ) (gt : List (List ℕ)) (p : ℚ) : List Tensor4 :=
  (maskLoop ops q gt b (q.vPatchNums.getLast?.getD 0) q.vPatchNums.length p
    (q.vPatchNums.length - 1) 1 0).1

/-- The `idx_to_mask` list of `idxBl_to_mask_input` (global masked positions
per scale `1 .. SN-1`). -/
def maskIdxs (ops : Ops) (q : VQ) (gt : List (List ℕ)) (p : ℚ) : List (List ℕ) :=
  (maskLoop ops q gt 0 (q.vPatchNums.getLast?.getD 0) q.vPatchNums.length p
    (q.vPatchNums.length - 1) 1 0).2

/-- Token count of the scales preceding scale `si` inside the concatenated
masked sequence (which starts at scale 1): the value of `cur_l` when the
loop reaches `si`. -/
def maskCum (q : VQ) (si : ℕ) : ℕ :=
  ((List.range (si - 1)).map (fun j =>
    q.vPatchNums.getD (j + 1) 0 * q.vPatchNums.getD (j + 1) 0)).sum

/-- `VectorQuantizer2.get_next_autoregressive_input` (`quant.py` lines
397-414), with the `f_hat` buffer made explicit: returns the accumulated
buffer (which the code also returns as its first output) and the second
output (`f_hat` area-downsampled to the next scale, or `f_hat` itself at the
last scale). -/
def getNextAutoregressiveInput (ops : Ops) (q : VQ) (si sn : ℕ)
    (fHat h : Tensor4) : Tensor4 × Tensor4 :=
  let hw := q.vPatchNums.getLast?.getD 0
  if si ≠ sn - 1 then
    let h2 := ops.phi ((si : ℚ) / ((sn : ℚ) - 1)) (ops.interpBicubic h hw hw)
    let fHat' := tadd fHat h2
    (fHat', ops.interpArea fHat' (q.vPatchNums.getD (si + 1) 0) (q.vPatchNums.getD (si + 1) 0))
  else
    let h2 := ops.phi ((si : ℚ) / ((sn : ℚ) - 1)) h
    let fHat' := tadd fHat h2
    (fHat', fHat')

/-- `VectorQuantizer2.get_next_mask_input` (`quant.py` lines 416-431), with
the `f_hat` buffer made explicit as the first component: the code only reads
`f_hat.clone()`, so the buffer is returned unchanged, together with the two
returned values (`f_hat` and the refined contribution, each area-downsampled
to the current scale `si`). -/
def getNextMaskInput (ops : Ops) (q : VQ) (si sn : ℕ)
    (fHat h : Tensor4) : Tensor4 × Tensor4 × Tensor4 :=
  let hw := q.vPatchNums.getLast?.getD 0
  let h2 := ops.phi ((si : ℚ) / ((sn : ℚ) - 1)) (ops.interpBicubic h hw hw)
  let pn := q.vPatchNums.getD si 0
  (fHat, ops.interpArea fHat pn pn, ops.interpArea h2 pn pn)

/-- Shape contracts of the external torch operations: `F.interpolate`
resizes the spatial dimensions and keeps batch, channels and dtype; the
`Phi` convolution preserves the whole shape; all-reduce preserves length. -/
structure OpsWF (ops : Ops) : Prop where
  areaB : ∀ t h w, (ops.interpArea t h w).nB = t.nB
  areaC : ∀ t h w, (ops.interpArea t h w).nC = t.nC
  areaH : ∀ t h w, (ops.interpArea t h w).nH = h
  areaW : ∀ t h w, (ops.interpArea t h w).nW = w
  areaD : ∀ t h w, (ops.interpArea t h w).dt = t.dt
  areaLen : ∀ t h w, (ops.interpArea t h w).data.length = t.nB * t.nC * (h * w)
  bicB : ∀ t h w, (ops.interpBicubic t h w).nB = t.nB
  bicC : ∀ t h w, (ops.interpBicubic t h w).nC = t.nC
  bicH : ∀ t h w, (ops.interpBicubic t h w).nH = h
  bicW : ∀ t h w, (ops.interpBicubic t h w).nW = w
  bicD : ∀ t h w, (ops.interpBicubic t h w).dt = t.dt
  bicLen : ∀ t h w, (ops.interpBicubic t h w).data.length = t.nB * t.nC * (h * w)
  phiB : ∀ r t, (ops.phi r t).nB = t.nB
  phiC : ∀ r t, (ops.phi r t).nC = t.nC
  phiH : ∀ r t, (ops.phi r t).nH = t.nH
  phiW : ∀ r t, (ops.phi r t).nW = t.nW
  phiD : ∀ r t, (ops.phi r t).dt = t.dt
  phiLen : ∀ r t, (ops.phi r t).data.length = t.data.length
  reduceLen : ∀ l, (ops.allReduce l).length = l.length

/-- Contract of `torch.multinomial(torch.ones n, k, replacement=False)`:
`k` distinct positions below `n` (the sampled distribution itself is not
modelled). -/
def SamplerWF (ops : Ops) : Prop :=
  ∀ n k, k ≤ n →
    (ops.multinomial n k).length = k ∧ (ops.multinomial n k).Nodup ∧
      ∀ x ∈ ops.multinomial n k, x < n

/-- Well-formedness of a `forward` call: a non-empty pyramid whose last
entry equals the input resolution, channel width matching `Cvae`, and data
of the announced size. -/
def VQPre (q : VQ) (f : Tensor4) : Prop :=
  q.vPatchNums ≠ [] ∧ q.vPatchNums.getLast?.getD 0 = f.nH ∧
    q.vPatchNums.getLast?.getD 0 = f.nW ∧ q.cvae = f.nC ∧
    f.data.length = f.nB * f.nC * (f.nH * f.nW)

/-- Shape invariant of the `forward` scale loop: residual and running
reconstruction stay at the input resolution, and the reconstruction is
float32. -/
def FInv (b c hh ww : ℕ) (st : FState) : Prop :=
  st.fRest.nB = b ∧ st.fRest.nC = c ∧ st.fRest.nH = hh ∧ st.fRest.nW = ww ∧
    st.fRest.data.length = b * c * (hh * ww) ∧
    st.fHat.nB = b ∧ st.fHat.nC = c ∧ st.fHat.nH = hh ∧ st.fHat.nW = ww ∧
    st.fHat.data.length = b * c * (hh * ww) ∧ st.fHat.dt = DType.float32

/-- Modelled from the spec: the per-scale utilization exactly as claim C5
words it — the fraction of codes whose EMA hit count strictly exceeds
`world_size * (H*W) / vocab_size * 0.08` (tokens per sample, not per
batch), as a percentage.  Used only to compare against the source
behaviour. -/
def specClaimUsages (worldSize : ℕ) (f : Tensor4) (vocab sn : ℕ)
    (ema : List (List ℚ)) : List ℚ :=
  let margin := (worldSize : ℚ) * ((f.nH * f.nW : ℕ) : ℚ) / (vocab : ℚ) * (2 / 25)
  (List.range sn).map (fun si =>
    listMean ((ema.getD si []).map (fun x => if margin < x then (1 : ℚ) else 0)) * 100)

/-- Mean of one `(b, c)` plane of a tensor. -/
def planeMean (t : Tensor4) (bc : ℕ) : ℚ :=
  ((t.data.drop (bc * (t.nH * t.nW))).take (t.nH * t.nW)).sum / ((t.nH * t.nW : ℕ) : ℚ)

/-- A simple executable stand-in for `F.interpolate`: every output position
of a `(b, c)` plane carries that plane's mean (exact for area-downsampling
to 1x1; shape-correct in general).  Used only to instantiate witnesses. -/
def cInterp (t : Tensor4) (h w : ℕ) : Tensor4 :=
  ⟨t.nB, t.nC, h, w, t.dt,
   ((List.range (t.nB * t.nC)).map (fun bc => List.replicate (h * w) (planeMean t bc))).flatten⟩

/-- A concrete executable instance of the external collaborators:
mean-plane interpolation, identity normalize (its values are irrelevant to
the claims), identity `Phi` (the `quant_resi ≈ 0` configuration), identity
all-reduce (single process), world size 1, and a deterministic
without-replacement sampler. -/
def concreteOps : Ops :=
  { interpArea := cInterp
    interpBicubic := cInterp
    normRow := id
    phi := fun _ t => t
    allReduce := id
    worldSize := 1
    multinomial := fun _ k => List.range k }

/-- Tiny quantizer used by witnesses: vocabulary `{0, 1}` embedded in one
channel, single-scale pyramid `[1]`, Euclidean lookup. -/
def qTiny : VQ :=
  { vocabSize := 2, cvae := 1, usingZnorm := false, vPatchNums := [1],
    beta := 1 / 4, embedding := [[0], [1]] }

/-- Tiny two-scale quantizer (pyramid `[1, 2]`) used by witnesses. -/
def qTwo : VQ :=
  { vocabSize := 2, cvae := 1, usingZnorm := false, vPatchNums := [1, 2],
    beta := 1 / 4, embedding := [[0], [1]] }

/-- A 1x1x1x1 float32 input holding the single value 0. -/
def fTiny : Tensor4 := ⟨1, 1, 1, 1, DType.float32, [0]⟩

/-- A 2x1x1x1 float32 input (batch of two) holding zeros. -/
def fBatch2 : Tensor4 := ⟨2, 1, 1, 1, DType.float32, [0, 0]⟩

/-- A 1x1x1x1 float16 input holding the single value 0. -/
def fHalf : Tensor4 := ⟨1, 1, 1, 1, DType.float16, [0]⟩

/-! ### Helper lemmas -/

theorem zip_sub_add_cancel : ∀ (a b : List ℚ), a.length = b.length →
    List.zipWith (· + ·) (List.zipWith (· - ·) a b) b = a
  | [], [], _ => rfl
  | [], _ :: _, h => by simp at h
  | _ :: _, [], h => by simp at h
  | x :: a, y :: b, h => by
    simp only [List.zipWith_cons_cons, List.cons.injEq]
    exact ⟨by ring, zip_sub_add_cancel a b (by simpa using h)⟩

theorem zip_add_sub_cancel : ∀ (a b : List ℚ), a.length = b.length →
    List.zipWith (· - ·) (List.zipWith (· + ·) a b) a = b
  | [], [], _ => rfl
  | [], _ :: _, h => by simp at h
  | _ :: _, [], h => by simp at h
  | x :: a, y :: b, h => by
    simp only [List.zipWith_cons_cons, List.cons.injEq]
    exact ⟨by ring, zip_add_sub_cancel a b (by simpa using h)⟩

theorem indicator_sum_countP (p : ℚ → Prop) [DecidablePred p] : ∀ l : List ℚ,
    (l.map (fun x => if p x then (1 : ℚ) else 0)).sum = (l.countP (fun x => decide (p x)) : ℚ)
  | [] => by simp
  | x :: l => by
    by_cases h : p x <;>
      simp [List.countP_cons, h, indicator_sum_countP p l] <;> ring

theorem cInterp_len (t : Tensor4) (h w : ℕ) :
    (cInterp t h w).data.length = t.nB * t.nC * (h * w) := by
  simp only [cInterp, List.length_flatten, List.map_map]
  have : (List.length ∘ fun bc => List.replicate (h * w) (planeMean t bc)) =
      Function.const ℕ (h * w) := by
    funext bc; simp
  rw [this, List.map_const, List.sum_replicate, List.length_range, smul_eq_mul]

theorem concreteOpsWF : OpsWF concreteOps := by
  constructor <;> intros <;> first
    | rfl
    | exact cInterp_len _ _ _

theorem concreteSamplerWF : SamplerWF concreteOps := by
  intro n k hk
  refine ⟨by simp [concreteOps], by simp [concreteOps, List.nodup_range], ?_⟩
  intro x hx
  simp only [concreteOps, List.mem_range] at hx
  omega

theorem ratAntisymm : Std.Antisymm ((· : ℚ) ≤ ·) := ⟨fun h h' => le_antisymm h h'⟩

theorem min?_mem_le (l : List ℚ) (m : ℚ) (hm : l.min? = some m) :
    m ∈ l ∧ ∀ b ∈ l, m ≤ b := by
  haveI : Std.Antisymm ((· : ℚ) ≤ ·) := ratAntisymm
  exact (List.min?_eq_some_iff le_refl min_choice (fun _ _ _ => le_min_iff)).mp hm

theorem firstArgmin_lt_length (l : List ℚ) (hl : l ≠ []) : firstArgmin l < l.length := by
  cases hm : l.min? with
  | none => exact absurd (List.min?_eq_none_iff.mp hm) hl
  | some m =>
    have hmem := min?_mem_le l m hm
    rw [firstArgmin, hm]
    exact List.findIdx_lt_length_of_exists ⟨m, hmem.1, by simp⟩

theorem firstArgmin_spec (l : List ℚ) (hl : l ≠ []) :
    (∀ j, j < l.length → l.getD (firstArgmin l) 0 ≤ l.getD j 0) ∧
      (∀ j, j < firstArgmin l → l.getD (firstArgmin l) 0 < l.getD j 0) := by
  cases hm : l.min? with
  | none => exact absurd (List.min?_eq_none_iff.mp hm) hl
  | some m =>
    have hmem := min?_mem_le l m hm
    have hlt : firstArgmin l < l.length := firstArgmin_lt_length l hl
    have hval : l.getD (firstArgmin l) 0 = m := by
      have := @List.findIdx_getElem _ (fun x => decide (x = m)) l (by
        rw [firstArgmin, hm] at hlt; exact hlt)
      simp only [decide_eq_true_eq] at this
      rw [List.getD_eq_getElem l 0 hlt]
      conv_rhs => rw [← this]
      congr 1
      rw [firstArgmin, hm]
    constructor
    · intro j hj
      rw [hval, List.getD_eq_getElem l 0 hj]
      exact hmem.2 _ (l.getElem_mem hj)
    · intro j hj
      have hjl : j < l.length := lt_trans hj hlt
      have hne : ¬ (l[j] = m) := by
        have := @List.not_of_lt_findIdx _ (fun x => decide (x = m)) l j (by
          rw [firstArgmin, hm] at hj; exact hj)
        simpa using this
      rw [hval, List.getD_eq_getElem l 0 hjl]
      exact lt_of_le_of_ne (hmem.2 _ (l.getElem_mem hjl)) (fun he => hne he.symm)

theorem linspace_length (a b : ℚ) (k : ℕ) : (linspace a b k).length = k := by
  simp only [linspace, List.length_map, List.length_range]

theorem phiTicks_length (k : ℕ) : (phiTicks k).length = k := by
  unfold phiTicks
  split <;> simp [linspace_length]

theorem rowsOf_length (t : Tensor4) : (rowsOf t).length = t.nB * (t.nH * t.nW) := by
  simp [rowsOf]

theorem scaleIdx_length (ops : Ops) (q : VQ) (fRest : Tensor4) (si sn pn : ℕ)
    (hw : OpsWF ops) :
    (scaleIdx ops q fRest si sn pn).length =
      if si ≠ sn - 1 then fRest.nB * (pn * pn) else fRest.nB * (fRest.nH * fRest.nW) := by
  unfold scaleIdx
  by_cases h : si ≠ sn - 1 <;>
    cases q.usingZnorm <;>
      simp [h, lookupEuclid, lookupCos, rowsOf_length, hw.areaB, hw.areaH, hw.areaW]

theorem embedToTensor_len (cv : ℕ) (emb : List (List ℚ)) (idx : List ℕ) (b pn : ℕ) :
    (embedToTensor cv emb idx b pn).data.length = b * cv * (pn * pn) := by
  simp [embedToTensor]

theorem embedToTensor_nB (cv : ℕ) (emb : List (List ℚ)) (idx : List ℕ) (b pn : ℕ) :
    (embedToTensor cv emb idx b pn).nB = b := rfl

theorem embedToTensor_nC (cv : ℕ) (emb : List (List ℚ)) (idx : List ℕ) (b pn : ℕ) :
    (embedToTensor cv emb idx b pn).nC = cv := rfl

theorem embedToTensor_nH (cv : ℕ) (emb : List (List ℚ)) (idx : List ℕ) (b pn : ℕ) :
    (embedToTensor cv emb idx b pn).nH = pn := rfl

theorem embedToTensor_nW (cv : ℕ) (emb : List (List ℚ)) (idx : List ℕ) (b pn : ℕ) :
    (embedToTensor cv emb idx b pn).nW = pn := rfl

theorem bincountQ_length (idx : List ℕ) (v : ℕ) : (bincountQ idx v).length = v := by
  simp [bincountQ]

theorem emaSet_rows (ops : Ops) (hw : OpsWF ops) (v : ℕ) (idx : List ℕ) (si rh : ℕ)
    (ema : List (List ℚ)) (hrows : ∀ r ∈ ema, r.length = v) :
    ∀ r ∈ ema.set si (emaUpdateRow rh (ema.getD si []) (ops.allReduce (bincountQ idx v))),
      r.length = v := by
  intro r hr
  by_cases hsl : si < ema.length
  · rcases List.mem_or_eq_of_mem_set hr with h | h
    · exact hrows r h
    · subst h
      have hold : (ema.getD si []).length = v := by
        rw [List.getD_eq_getElem _ [] hsl]
        exact hrows _ (List.getElem_mem hsl)
      unfold emaUpdateRow
      split
      · rw [hw.reduceLen, bincountQ_length]
      · split <;>
          rw [List.length_zipWith, hw.reduceLen, bincountQ_length, hold, Nat.min_self]
  · rw [List.set_eq_of_length_le (by omega)] at hr
    exact hrows r hr

theorem forwardStep_ok (ops : Ops) (q : VQ) (training distInit : Bool) (fD : List ℚ)
    (b c hh ww sn si pn : ℕ) (st : FState)
    (hw : OpsWF ops) (hc : q.cvae = c) (hinv : FInv b c hh ww st)
    (hbr : si ≠ sn - 1 ∨ (pn = hh ∧ pn = ww)) :
    ∃ st', forwardStep ops q training distInit fD hh ww sn si pn st = .ok st' ∧
      FInv b c hh ww st' ∧
      st'.ema.length = st.ema.length ∧
      ((∀ r ∈ st.ema, r.length = q.vocabSize) → ∀ r ∈ st'.ema, r.length = q.vocabSize) ∧
      (¬ (training = true ∧ distInit = true) →
        st'.ema = st.ema ∧ st'.recordHit = st.recordHit) ∧
      ((training = true ∧ distInit = true) → st'.recordHit = st.recordHit + 1) := by
  obtain ⟨hrB, hrC, hrH, hrW, hrL, hhB, hhC, hhH, hhW, hhL, hhD⟩ := hinv
  have hlen : (scaleIdx ops q st.fRest si sn pn).length = st.fRest.nB * (pn * pn) := by
    rw [scaleIdx_length ops q st.fRest si sn pn hw]
    rcases hbr with h | ⟨h1, h2⟩
    · rw [if_pos h]
    · by_cases h : si ≠ sn - 1
      · rw [if_pos h]
      · rw [if_neg h, hrH, hrW, ← h1, ← h2]
  -- the refined contribution and its dimensions, by cases on the branch
  by_cases hsi : si ≠ sn - 1
  all_goals
    obtain ⟨hp1, hp2⟩ : (¬ si ≠ sn - 1 → pn = hh ∧ pn = ww) ∧ True := by
      refine ⟨fun hn => ?_, trivial⟩
      rcases hbr with h | h
      · exact absurd h hn
      · exact h
  · simp only [forwardStep, if_pos hsi]
    rw [if_neg (fun hne => hne hlen)]
    rw [if_neg (not_not_intro ⟨by rw [hw.phiB, hw.bicB, embedToTensor_nB]; exact hrB.trans hhB.symm,
      by rw [hw.phiC, hw.bicC, embedToTensor_nC]; exact hc.trans hhC.symm,
      by rw [hw.phiH, hw.bicH]; exact hhH.symm,
      by rw [hw.phiW, hw.bicW]; exact hhW.symm⟩)]
    have hl2 : (ops.phi ((si : ℚ) / ((sn : ℚ) - 1))
        (ops.interpBicubic (embedToTensor q.cvae q.embedding
          (scaleIdx ops q st.fRest si sn pn) st.fRest.nB pn) hh ww)).data.length =
        b * c * (hh * ww) := by
      rw [hw.phiLen, hw.bicLen, embedToTensor_nB, embedToTensor_nC, hrB, hc]
    refine ⟨_, rfl, ?_, ?_, ?_, ?_, ?_⟩
    · refine ⟨hrB, hrC, hrH, hrW, ?_, hhB, hhC, hhH, hhW, ?_, hhD⟩
      · simp only [tsub, List.length_zipWith, hrL, hl2, Nat.min_self]
      · simp only [tadd, List.length_zipWith, hhL, hl2, Nat.min_self]
    · by_cases htd : training ∧ distInit <;> simp [htd]
    · intro hrows
      by_cases htd : training ∧ distInit
      · simp only [if_pos htd]
        exact emaSet_rows ops hw q.vocabSize _ si st.recordHit st.ema hrows
      · simp only [if_neg htd]
        exact hrows
    · intro htd
      simp [htd]
    · intro htd
      simp [htd]
  · have hp := hp1 hsi
    simp only [forwardStep, if_neg hsi]
    rw [if_neg (fun hne => hne hlen)]
    rw [if_neg (not_not_intro ⟨by rw [hw.phiB, embedToTensor_nB]; exact hrB.trans hhB.symm,
      by rw [hw.phiC, embedToTensor_nC]; exact hc.trans hhC.symm,
      by rw [hw.phiH, embedToTensor_nH]; exact hp.1.trans hhH.symm,
      by rw [hw.phiW, embedToTensor_nW]; exact hp.2.trans hhW.symm⟩)]
    have hl2 : (ops.phi ((si : ℚ) / ((sn : ℚ) - 1))
        (embedToTensor q.cvae q.embedding
          (scaleIdx ops q st.fRest si sn pn) st.fRest.nB pn)).data.length =
        b * c * (hh * ww) := by
      rw [hw.phiLen, embedToTensor_len, hrB, hc, ← hp.1, ← hp.2]
    refine ⟨_, rfl, ?_, ?_, ?_, ?_, ?_⟩
    · refine ⟨hrB, hrC, hrH, hrW, ?_, hhB, hhC, hhH, hhW, ?_, hhD⟩
      · simp only [tsub, List.length_zipWith, hrL, hl2, Nat.min_self]
      · simp only [tadd, List.length_zipWith, hhL, hl2, Nat.min_self]
    · by_cases htd : training ∧ distInit <;> simp [htd]
    · intro hrows
      by_cases htd : training ∧ distInit
      · simp only [if_pos htd]
        exact emaSet_rows ops hw q.vocabSize _ si st.recordHit st.ema hrows
      · simp only [if_neg htd]
        exact hrows
    · intro htd
      simp [htd]
    · intro htd
      simp [htd]

theorem forwardScales_ok (ops : Ops) (q : VQ) (training distInit : Bool) (fD : List ℚ)
    (b c hh ww sn : ℕ) (hw : OpsWF ops) (hc : q.cvae = c) :
    ∀ (pns : List ℕ) (si : ℕ) (st : FState),
      si + pns.length = sn →
      (∀ pl, pns.getLast? = some pl → pl = hh ∧ pl = ww) →
      FInv b c hh ww st →
      ∃ st', forwardScales ops q training distInit fD hh ww sn si pns st = .ok st' ∧
        FInv b c hh ww st' ∧
        st'.ema.length = st.ema.length ∧
        ((∀ r ∈ st.ema, r.length = q.vocabSize) → ∀ r ∈ st'.ema, r.length = q.vocabSize) ∧
        (¬ (training = true ∧ distInit = true) →
          st'.ema = st.ema ∧ st'.recordHit = st.recordHit) ∧
        ((training = true ∧ distInit = true) → st'.recordHit = st.recordHit + pns.length)
  | [], si, st, _, _, hinv =>
    ⟨st, rfl, hinv, rfl, fun h => h, fun _ => ⟨rfl, rfl⟩, fun _ => by simp⟩
  | pn :: rest, si, st, hlen, hlast, hinv => by
    have hbr : si ≠ sn - 1 ∨ (pn = hh ∧ pn = ww) := by
      cases rest with
      | nil => exact Or.inr (hlast pn (by simp))
      | cons r rs =>
        left
        simp only [List.length_cons] at hlen
        omega
    obtain ⟨st1, hst1, hinv1, hel1, hrows1, hunch1, hcnt1⟩ :=
      forwardStep_ok ops q training distInit fD b c hh ww sn si pn st hw hc hinv hbr
    have hlast' : ∀ pl, rest.getLast? = some pl → pl = hh ∧ pl = ww := by
      cases rest with
      | nil => intro pl h; simp at h
      | cons r rs => intro pl h; exact hlast pl (by rw [List.getLast?_cons_cons]; exact h)
    obtain ⟨st2, hst2, hinv2, hel2, hrows2, hunch2, hcnt2⟩ :=
      forwardScales_ok ops q training distInit fD b c hh ww sn hw hc rest (si + 1) st1
        (by simp only [List.length_cons] at hlen ⊢; omega) hlast' hinv1
    refine ⟨st2, ?_, hinv2, hel2.trans hel1, fun h => hrows2 (hrows1 h), ?_, ?_⟩
    · simp only [forwardScales, hst1]
      exact hst2
    · intro h
      obtain ⟨he1, hr1⟩ := hunch1 h
      obtain ⟨he2, hr2⟩ := hunch2 h
      exact ⟨he2.trans he1, hr2.trans hr1⟩
    · intro h
      rw [hcnt2 h, hcnt1 h, List.length_cons]
      omega

theorem forwardStep_err (ops : Ops) (q : VQ) (training distInit : Bool) (fD : List ℚ)
    (b c hh ww sn si pn : ℕ) (st : FState)
    (hw : OpsWF ops) (hinv : FInv b c hh ww st)
    (hsi : ¬ si ≠ sn - 1) (hne : ¬ (pn = hh ∧ pn = ww)) :
    forwardStep ops q training distInit fD hh ww sn si pn st = .error .runtimeError := by
  obtain ⟨hrB, hrC, hrH, hrW, hrL, hhB, hhC, hhH, hhW, hhL, hhD⟩ := hinv
  have hlenL : (scaleIdx ops q st.fRest si sn pn).length = st.fRest.nB * (hh * ww) := by
    rw [scaleIdx_length ops q st.fRest si sn pn hw, if_neg hsi, hrH, hrW]
  by_cases hq : st.fRest.nB * (hh * ww) = st.fRest.nB * (pn * pn)
  · simp only [forwardStep, if_neg hsi]
    rw [if_neg (fun hx => hx (hlenL.trans hq))]
    rw [if_pos (fun hcj => hne ⟨by
        have h3 := hcj.2.2.1
        rw [hw.phiH, embedToTensor_nH, hhH] at h3
        exact h3, by
        have h4 := hcj.2.2.2
        rw [hw.phiW, embedToTensor_nW, hhW] at h4
        exact h4⟩)]
  · simp only [forwardStep, if_neg hsi]
    rw [if_pos (by rw [hlenL]; exact hq)]

theorem forwardScales_err (ops : Ops) (q : VQ) (training distInit : Bool) (fD : List ℚ)
    (b c hh ww sn : ℕ) (hw : OpsWF ops) (hc : q.cvae = c) :
    ∀ (pns : List ℕ) (si : ℕ) (st : FState),
      si + pns.length = sn →
      (∀ pl, pns.getLast? = some pl → ¬ (pl = hh ∧ pl = ww)) →
      pns ≠ [] →
      FInv b c hh ww st →
      forwardScales ops q training distInit fD hh ww sn si pns st = .error .runtimeError
  | [], _, _, _, _, hne, _ => absurd rfl hne
  | pn :: rest, si, st, hlen, hlast, _, hinv => by
    cases rest with
    | nil =>
      have hsi : ¬ si ≠ sn - 1 := by
        simp only [List.length_cons, List.length_nil] at hlen
        omega
      have := forwardStep_err ops q training distInit fD b c hh ww sn si pn st hw hinv hsi
        (hlast pn (by simp))
      simp only [forwardScales, this]
    | cons r rs =>
      have hbr : si ≠ sn - 1 ∨ (pn = hh ∧ pn = ww) := by
        left
        simp only [List.length_cons] at hlen
        omega
      obtain ⟨st1, hst1, hinv1, _, _, _, _⟩ :=
        forwardStep_ok ops q training distInit fD b c hh ww sn si pn st hw hc hinv hbr
      have hrec := forwardScales_err ops q training distInit fD b c hh ww sn hw hc
        (r :: rs) (si + 1) st1
        (by simp only [List.length_cons] at hlen ⊢; omega)
        (fun pl h => hlast pl (by rw [List.getLast?_cons_cons]; exact h))
        (by simp) hinv1
      simp only [forwardScales, hst1]
      exact hrec

theorem castF32_nB (t : Tensor4) : (castF32 t).nB = t.nB := by
  unfold castF32; split <;> rfl

theorem castF32_nC (t : Tensor4) : (castF32 t).nC = t.nC := by
  unfold castF32; split <;> rfl

theorem castF32_nH (t : Tensor4) : (castF32 t).nH = t.nH := by
  unfold castF32; split <;> rfl

theorem castF32_nW (t : Tensor4) : (castF32 t).nW = t.nW := by
  unfold castF32; split <;> rfl

theorem castF32_data (t : Tensor4) : (castF32 t).data = t.data := by
  unfold castF32; split <;> rfl

theorem castF32_dt (t : Tensor4) : (castF32 t).dt = DType.float32 := by
  unfold castF32
  split
  · rfl
  · next h => exact not_ne_iff.mp h

theorem initFInv (q : VQ) (f : Tensor4) (ema0 : List (List ℚ)) (rh0 : ℕ)
    (hlen : f.data.length = f.nB * f.nC * (f.nH * f.nW)) :
    FInv f.nB f.nC f.nH f.nW
      { fRest := castF32 f, fHat := zerosLike (castF32 f),
        vocabHit := List.replicate q.vocabSize 0, lossAcc := 0,
        ema := ema0, recordHit := rh0 } := by
  refine ⟨castF32_nB f, castF32_nC f, castF32_nH f, castF32_nW f, ?_,
    castF32_nB f, castF32_nC f, castF32_nH f, castF32_nW f, ?_, castF32_dt f⟩
  · rw [castF32_data]; exact hlen
  · simp only [zerosLike, List.length_replicate, Tensor4.numel,
      castF32_nB, castF32_nC, castF32_nH, castF32_nW]

theorem vPatch_last (q : VQ) (f : Tensor4) (hpre : VQPre q f) :
    ∀ pl, q.vPatchNums.getLast? = some pl → pl = f.nH ∧ pl = f.nW := by
  intro pl h
  obtain ⟨-, h1, h2, -, -⟩ := hpre
  rw [h] at h1 h2
  exact ⟨h1, h2⟩

theorem forward_ok (ops : Ops) (q : VQ) (training distInit : Bool) (f : Tensor4)
    (retU : Bool) (ema0 : List (List ℚ)) (rh0 : ℕ)
    (hw : OpsWF ops) (hpre : VQPre q f) :
    ∃ st, forwardScales ops q training distInit (castF32 f).data f.nH f.nW
        q.vPatchNums.length 0 q.vPatchNums
        { fRest := castF32 f, fHat := zerosLike (castF32 f),
          vocabHit := List.replicate q.vocabSize 0, lossAcc := 0,
          ema := ema0, recordHit := rh0 } = .ok st ∧
      FInv f.nB f.nC f.nH f.nW st ∧
      st.ema.length = ema0.length ∧
      ((∀ r ∈ ema0, r.length = q.vocabSize) → ∀ r ∈ st.ema, r.length = q.vocabSize) ∧
      (¬ (training = true ∧ distInit = true) → st.ema = ema0 ∧ st.recordHit = rh0) ∧
      ((training = true ∧ distInit = true) → st.recordHit = rh0 + q.vPatchNums.length) ∧
      forward ops q training distInit f retU ema0 rh0 = .ok
        (tadd (tsub st.fHat (castF32 f)) (castF32 f),
         (if retU then
            some ((List.range q.vPatchNums.length).map (fun si =>
              listMean ((st.ema.getD si []).map (fun x =>
                if (ops.worldSize : ℚ) * (((castF32 f).numel : ℚ) / (((castF32 f).nC : ℕ) : ℚ)) /
                    (q.vocabSize : ℚ) * (2 / 25) ≤ x then (1 : ℚ) else 0)) * 100))
          else none),
         st.lossAcc * (1 / (q.vPatchNums.length : ℚ)), st.ema, st.recordHit) := by
  obtain ⟨st, hsc, hinv, hel, hrows, hunch, hcnt⟩ :=
    forwardScales_ok ops q training distInit (castF32 f).data f.nB f.nC f.nH f.nW
      q.vPatchNums.length hw hpre.2.2.2.1 q.vPatchNums 0
      { fRest := castF32 f, fHat := zerosLike (castF32 f),
        vocabHit := List.replicate q.vocabSize 0, lossAcc := 0,
        ema := ema0, recordHit := rh0 }
      (by simp) (vPatch_last q f hpre) (initFInv q f ema0 rh0 hpre.2.2.2.2)
  refine ⟨st, by
      have hH : (castF32 f).nH = f.nH := castF32_nH f
      have hW : (castF32 f).nW = f.nW := castF32_nW f
      rw [← hH, ← hW] at hsc ⊢
      exact hsc,
    hinv, hel, hrows, hunch, hcnt, ?_⟩
  simp only [forward]
  have hH : (castF32 f).nH = f.nH := castF32_nH f
  have hW : (castF32 f).nW = f.nW := castF32_nW f
  rw [← hH, ← hW] at hsc
  rw [hsc]

/-! ### Claim theorems -/

/-- Claim C2: for every valid input whose last pyramid scale equals its
resolution, `forward` succeeds and its returned reconstruction is exactly the
accumulated quantized reconstruction `f_hat` of the scale loop (the
straight-through expression `input + stopgrad(f_hat - input)` is numerically
the identity on `f_hat`), with shape `(B, C, H, W)` identical to the
input. -/
theorem C2_straight_through_eq_fhat (ops : Ops) (q : VQ) (training distInit : Bool)
    (f : Tensor4) (retU : Bool) (ema0 : List (List ℚ)) (rh0 : ℕ)
    (hw : OpsWF ops) (hpre : VQPre q f) :
    ∃ st u l, forwardScales ops q training distInit (castF32 f).data f.nH f.nW
        q.vPatchNums.length 0 q.vPatchNums
        { fRest := castF32 f, fHat := zerosLike (castF32 f),
          vocabHit := List.replicate q.vocabSize 0, lossAcc := 0,
          ema := ema0, recordHit := rh0 } = .ok st ∧
      forward ops q training distInit f retU ema0 rh0 =
        .ok (st.fHat, u, l, st.ema, st.recordHit) ∧
      st.fHat.nB = f.nB ∧ st.fHat.nC = f.nC ∧ st.fHat.nH = f.nH ∧ st.fHat.nW = f.nW := by
  obtain ⟨st, hsc, hinv, -, -, -, -, hfwd⟩ :=
    forward_ok ops q training distInit f retU ema0 rh0 hw hpre
  obtain ⟨-, -, -, -, -, hB, hC, hH, hW, hL, -⟩ := hinv
  have hlen : st.fHat.data.length = (castF32 f).data.length := by
    rw [castF32_data, hL, hpre.2.2.2.2]
  have hout : tadd (tsub st.fHat (castF32 f)) (castF32 f) = st.fHat := by
    simp only [tadd, tsub]
    rw [zip_sub_add_cancel _ _ hlen]
  rw [hout] at hfwd
  exact ⟨st, _, _, hsc, hfwd, hB, hC, hH, hW⟩

/-- Witness for C2 at the tiny single-scale quantizer and a concrete 1x1x1x1
input. -/
theorem C2_witness :
    ∃ st u l, forwardScales concreteOps qTiny true false (castF32 fTiny).data fTiny.nH fTiny.nW
        qTiny.vPatchNums.length 0 qTiny.vPatchNums
        { fRest := castF32 fTiny, fHat := zerosLike (castF32 fTiny),
          vocabHit := List.replicate qTiny.vocabSize 0, lossAcc := 0,
          ema := [[0, 0]], recordHit := 0 } = .ok st ∧
      forward concreteOps qTiny true false fTiny false [[0, 0]] 0 =
        .ok (st.fHat, u, l, st.ema, st.recordHit) ∧
      st.fHat.nB = fTiny.nB ∧ st.fHat.nC = fTiny.nC ∧
      st.fHat.nH = fTiny.nH ∧ st.fHat.nW = fTiny.nW :=
  C2_straight_through_eq_fhat concreteOps qTiny true false fTiny false [[0, 0]] 0
    concreteOpsWF (by simp [VQPre, qTiny, fTiny])

/-- Counterexample to claim C1 as stated: a training-mode `forward` call with
distributed mode off, on the tiny quantizer (the nearest code of the zero
input is code 0, so the locally computed hit counts are `[1, 0]`); the claim
predicts the EMA row becomes `[1, 0]` and the counter becomes 1, but the call
returns with the EMA row still `[0, 0]` and the counter still 0. -/
theorem C1_counterexample :
    forward concreteOps qTiny true false fTiny false [[0, 0]] 0 =
      .ok (⟨1, 1, 1, 1, DType.float32, [0]⟩, none, 0, [[0, 0]], 0) ∧
    bincountQ (scaleIdx concreteOps qTiny fTiny 0 1 1) 2 = [1, 0] ∧
    ¬ (([[0, 0]] : List (List ℚ)) = [[1, 0]] ∧ (0 : ℕ) = 1) := by
  refine ⟨?_, ?_, ?_⟩
  · norm_num [forward, forwardScales, forwardStep, scaleIdx, lookupEuclid, firstArgmin,
      sqDistQ, sqSum, dotQ, rowsOf, cInterp, planeMean, bincountQ, embedToTensor,
      castF32, zerosLike, Tensor4.numel, tadd, tsub, mseQ, listMean, concreteOps, qTiny, fTiny,
      emaUpdateRow, List.range_succ, List.min?, List.findIdx, List.findIdx.go,
      List.count_cons, List.count_nil, Bool.cond_decide, List.replicate_succ,
      List.zipWith_cons_cons, List.sum_cons]
  · norm_num [bincountQ, scaleIdx, concreteOps, qTiny, fTiny, rowsOf, lookupEuclid, firstArgmin,
      sqDistQ, sqSum, dotQ, cInterp, planeMean, List.range_succ, List.min?, List.findIdx,
      List.findIdx.go, List.count_cons, List.count_nil, Bool.cond_decide]
  · intro h
    exact absurd h.1 (by norm_num)

/-- Claim C1, amended: when `forward` runs in training mode with distributed
mode not initialized, the call still completes successfully, but the EMA
usage histogram and the shared times-updated counter are returned unchanged —
the code skips the entire EMA-update block (reduction and blend alike), not
only the cross-process reduction; the hit counts only feed the local
per-call accumulator. -/
theorem C1_no_ema_update_when_not_dist (ops : Ops) (q : VQ) (f : Tensor4)
    (retU : Bool) (ema0 : List (List ℚ)) (rh0 : ℕ)
    (hw : OpsWF ops) (hpre : VQPre q f) :
    ∃ out u l, forward ops q true false f retU ema0 rh0 = .ok (out, u, l, ema0, rh0) := by
  obtain ⟨st, -, -, -, -, hunch, -, hfwd⟩ :=
    forward_ok ops q true false f retU ema0 rh0 hw hpre
  obtain ⟨he, hr⟩ := hunch (by simp)
  rw [he, hr] at hfwd
  exact ⟨_, _, _, hfwd⟩

/-- Witness for the amended C1 at the tiny quantizer: the call succeeds and
leaves the EMA state `[[0, 0]]` and counter `0` untouched. -/
theorem C1_witness :
    ∃ out u l, forward concreteOps qTiny true false fTiny false [[0, 0]] 0 =
      .ok (out, u, l, [[0, 0]], 0) :=
  C1_no_ema_update_when_not_dist concreteOps qTiny fTiny false [[0, 0]] 0
    concreteOpsWF (by simp [VQPre, qTiny, fTiny])

/-- Claim C4: the EMA usage-histogram update has exactly three regimes driven
by the shared `record_hit` counter — counter 0 copies the hit counts, a
counter below 100 blends `old*0.9 + new*0.1` (so the update at counter 50
does), and a counter of 100 or more blends `old*0.99 + new*0.01` (so the
update at counter 150 does); the counter is shared across scales: one
distributed training forward pass over `SN` scales advances it by `SN`. -/
theorem C4_ema_regimes :
    (∀ old new : List ℚ, emaUpdateRow 0 old new = new) ∧
    (∀ (rh : ℕ) (old new : List ℚ), 0 < rh → rh < 100 →
      emaUpdateRow rh old new =
        List.zipWith (fun o n => o * (9 / 10) + n * (1 / 10)) old new) ∧
    (∀ (rh : ℕ) (old new : List ℚ), 100 ≤ rh →
      emaUpdateRow rh old new =
        List.zipWith (fun o n => o * (99 / 100) + n * (1 / 100)) old new) ∧
    (∀ (ops : Ops) (q : VQ) (f : Tensor4) (retU : Bool) (ema0 : List (List ℚ)) (rh0 : ℕ),
      OpsWF ops → VQPre q f →
      ∃ out u l e', forward ops q true true f retU ema0 rh0 =
        .ok (out, u, l, e', rh0 + q.vPatchNums.length)) := by
  refine ⟨?_, ?_, ?_, ?_⟩
  · intro old new
    simp [emaUpdateRow]
  · intro rh old new h1 h2
    rw [emaUpdateRow, if_neg (by omega), if_pos h2]
  · intro rh old new h
    rw [emaUpdateRow, if_neg (by omega), if_neg (by omega)]
  · intro ops q f retU ema0 rh0 hw hpre
    obtain ⟨st, -, -, -, -, -, hcnt, hfwd⟩ :=
      forward_ok ops q true true f retU ema0 rh0 hw hpre
    rw [hcnt ⟨rfl, rfl⟩] at hfwd
    exact ⟨_, _, _, _, hfwd⟩

/-- Witness for C4: the regimes evaluated at counters 0, 50 and 150, and the
shared counter advanced by the single scale of the tiny quantizer in a
distributed-mode training call. -/
theorem C4_witness :
    emaUpdateRow 0 [5] [7] = [7] ∧
    emaUpdateRow 50 [1] [2] = [11 / 10] ∧
    emaUpdateRow 150 [1] [2] = [101 / 100] ∧
    ∃ out u l e', forward concreteOps qTiny true true fTiny false [[0, 0]] 0 =
      .ok (out, u, l, e', 0 + qTiny.vPatchNums.length) := by
  refine ⟨C4_ema_regimes.1 [5] [7], ?_, ?_, ?_⟩
  · rw [C4_ema_regimes.2.1 50 [1] [2] (by norm_num) (by norm_num)]
    norm_num
  · rw [C4_ema_regimes.2.2.1 150 [1] [2] (by norm_num)]
    norm_num
  · exact C4_ema_regimes.2.2.2 concreteOps qTiny fTiny false [[0, 0]] 0
      concreteOpsWF (by simp [VQPre, qTiny, fTiny])

/-- Claim C10: `forward` accepts any floating dtype, immediately casts
non-float32 inputs to float32 without changing their values, and returns a
float32 reconstruction of the input's shape — shape is preserved, dtype need
not be. -/
theorem C10_output_float32 (ops : Ops) (q : VQ) (training distInit : Bool)
    (f : Tensor4) (retU : Bool) (ema0 : List (List ℚ)) (rh0 : ℕ)
    (hw : OpsWF ops) (hpre : VQPre q f) :
    (castF32 f).dt = DType.float32 ∧ (castF32 f).data = f.data ∧
    ∃ out u l e r, forward ops q training distInit f retU ema0 rh0 =
      .ok (out, u, l, e, r) ∧ out.dt = DType.float32 ∧
      out.nB = f.nB ∧ out.nC = f.nC ∧ out.nH = f.nH ∧ out.nW = f.nW := by
  refine ⟨castF32_dt f, castF32_data f, ?_⟩
  obtain ⟨st, -, hinv, -, -, -, -, hfwd⟩ :=
    forward_ok ops q training distInit f retU ema0 rh0 hw hpre
  obtain ⟨-, -, -, -, -, hB, hC, hH, hW, -, hD⟩ := hinv
  exact ⟨_, _, _, _, _, hfwd, hD, hB, hC, hH, hW⟩

/-- Witness for C10 at a float16 input: the output dtype is float32 while the
input dtype is float16, so the dtype is not preserved. -/
theorem C10_witness :
    ((castF32 fHalf).dt = DType.float32 ∧ (castF32 fHalf).data = fHalf.data ∧
      ∃ out u l e r, forward concreteOps qTiny false false fHalf false [[0, 0]] 0 =
        .ok (out, u, l, e, r) ∧ out.dt = DType.float32 ∧
        out.nB = fHalf.nB ∧ out.nC = fHalf.nC ∧ out.nH = fHalf.nH ∧ out.nW = fHalf.nW) ∧
    fHalf.dt = DType.float16 :=
  ⟨C10_output_float32 concreteOps qTiny false false fHalf false [[0, 0]] 0
    concreteOpsWF (by simp [VQPre, qTiny, fHalf]), rfl⟩

/-- Counterexample to claim C5 as stated: a batch-2 call on the tiny
quantizer.  The code's margin is `world_size * (numel / C) / vocab * 0.08 =
1 * 2 / 2 * 0.08 = 0.08` and an EMA row of `[1/20, 1/20]` yields utilization
`[0]`, while the claim's per-sample margin `1 * 1 / 2 * 0.08 = 0.04` with a
strict comparison predicts `[100]`. -/
theorem C5_counterexample :
    forward concreteOps qTiny false false fBatch2 true [[1 / 20, 1 / 20]] 0 =
      .ok (⟨2, 1, 1, 1, DType.float32, [0, 0]⟩, some [0], 0, [[1 / 20, 1 / 20]], 0) ∧
    specClaimUsages 1 fBatch2 2 1 [[1 / 20, 1 / 20]] = [100] ∧
    ([(0 : ℚ)] : List ℚ) ≠ [100] := by
  refine ⟨?_, ?_, by norm_num⟩
  · norm_num [forward, forwardScales, forwardStep, scaleIdx, lookupEuclid, firstArgmin,
      sqDistQ, sqSum, dotQ, rowsOf, cInterp, planeMean, bincountQ, embedToTensor,
      castF32, zerosLike, Tensor4.numel, tadd, tsub, mseQ, listMean, concreteOps, qTiny, fBatch2,
      emaUpdateRow, List.range_succ, List.min?, List.findIdx, List.findIdx.go,
      List.count_cons, List.count_nil, Bool.cond_decide, List.replicate_succ,
      List.zipWith_cons_cons, List.sum_cons]
  · norm_num [specClaimUsages, fBatch2, listMean, List.range_succ]

/-- Claim C5, amended: with `ret_usages=True` the returned per-scale
utilization is, for each scale, the fraction of vocabulary codes whose EMA
hit count is at least (not strictly above) the margin
`world_size * (B*H*W) / vocab_size * 0.08` — the token count is
`numel / channels`, i.e. batch times tokens-per-sample, not tokens-per-sample
alone — expressed as a percentage. -/
theorem C5_usages_margin (ops : Ops) (q : VQ) (training distInit : Bool)
    (f : Tensor4) (ema0 : List (List ℚ)) (rh0 : ℕ)
    (hw : OpsWF ops) (hpre : VQPre q f)
    (hrows : ∀ r ∈ ema0, r.length = q.vocabSize)
    (hlen0 : ema0.length = q.vPatchNums.length)
    (hv : 0 < q.vocabSize) (hcpos : 0 < f.nC) :
    ∃ out l e' r', forward ops q training distInit f true ema0 rh0 = .ok (out,
      some ((List.range q.vPatchNums.length).map (fun si =>
        100 * (((e'.getD si []).countP (fun x =>
          decide ((ops.worldSize : ℚ) * ((f.nB * (f.nH * f.nW) : ℕ) : ℚ) /
            (q.vocabSize : ℚ) * (2 / 25) ≤ x)) : ℕ) : ℚ) / (q.vocabSize : ℚ))),
      l, e', r') := by
  obtain ⟨st, -, -, hel, hrowsP, -, -, hfwd⟩ :=
    forward_ok ops q training distInit f true ema0 rh0 hw hpre
  have hrows' : ∀ r ∈ st.ema, r.length = q.vocabSize := hrowsP hrows
  have hM : (ops.worldSize : ℚ) * (((castF32 f).numel : ℚ) / (((castF32 f).nC : ℕ) : ℚ)) /
      (q.vocabSize : ℚ) * (2 / 25) =
      (ops.worldSize : ℚ) * ((f.nB * (f.nH * f.nW) : ℕ) : ℚ) / (q.vocabSize : ℚ) * (2 / 25) := by
    have h1 : (castF32 f).numel = f.nB * f.nC * (f.nH * f.nW) := by
      simp [Tensor4.numel, castF32_nB, castF32_nC, castF32_nH, castF32_nW]
    have h2 : (castF32 f).nC = f.nC := castF32_nC f
    have hc : ((f.nC : ℕ) : ℚ) ≠ 0 := Nat.cast_ne_zero.mpr (by omega)
    rw [h1, h2]
    push_cast
    field_simp
    ring
  have hmap : (List.range q.vPatchNums.length).map (fun si =>
      listMean ((st.ema.getD si []).map (fun x =>
        if (ops.worldSize : ℚ) * (((castF32 f).numel : ℚ) / (((castF32 f).nC : ℕ) : ℚ)) /
            (q.vocabSize : ℚ) * (2 / 25) ≤ x then (1 : ℚ) else 0)) * 100) =
      (List.range q.vPatchNums.length).map (fun si =>
      100 * (((st.ema.getD si []).countP (fun x =>
        decide ((ops.worldSize : ℚ) * ((f.nB * (f.nH * f.nW) : ℕ) : ℚ) /
          (q.vocabSize : ℚ) * (2 / 25) ≤ x)) : ℕ) : ℚ) / (q.vocabSize : ℚ)) := by
    refine List.map_congr_left (fun si hsi => ?_)
    have hsi' : si < st.ema.length := by
      rw [hel, hlen0]
      exact List.mem_range.mp hsi
    have hrowlen : (st.ema.getD si []).length = q.vocabSize := by
      rw [List.getD_eq_getElem _ [] hsi']
      exact hrows' _ (List.getElem_mem hsi')
    rw [hM, listMean,
      indicator_sum_countP (fun x => (ops.worldSize : ℚ) *
        ((f.nB * (f.nH * f.nW) : ℕ) : ℚ) / (q.vocabSize : ℚ) * (2 / 25) ≤ x),
      List.length_map, hrowlen]
    ring
  rw [if_pos rfl, hmap] at hfwd
  exact ⟨_, _, _, _, hfwd⟩

/-- Witness for the amended C5 on the batch-2 input: the hypotheses hold and
the returned utilization matches the `>= margin` count formula. -/
theorem C5_witness :
    ∃ out l e' r', forward concreteOps qTiny false false fBatch2 true [[1 / 20, 1 / 20]] 0 =
      .ok (out,
        some ((List.range qTiny.vPatchNums.length).map (fun si =>
          100 * (((e'.getD si []).countP (fun x =>
            decide ((concreteOps.worldSize : ℚ) *
              ((fBatch2.nB * (fBatch2.nH * fBatch2.nW) : ℕ) : ℚ) /
              (qTiny.vocabSize : ℚ) * (2 / 25) ≤ x)) : ℕ) : ℚ) / (qTiny.vocabSize : ℚ))),
        l, e', r') :=
  C5_usages_margin concreteOps qTiny false false fBatch2 [[1 / 20, 1 / 20]] 0
    concreteOpsWF (by simp [VQPre, qTiny, fBatch2])
    (by intro r hr; simp at hr; rw [hr]; rfl)
    (by rfl) (by norm_num [qTiny]) (by norm_num [fBatch2])

/-- Counterexample to claim C6 as stated: `forward` on a mismatched input
(pyramid `[2]`, input resolution 1x1) fails with a runtime tensor error at
the final scale's reshape, not with an assertion failure. -/
theorem C6_counterexample :
    forward concreteOps { qTiny with vPatchNums := [2] } true false fTiny false [[0, 0]] 0 =
      .error .runtimeError ∧
    Except.error (ε := PErr) (α := List FOut) PErr.runtimeError ≠ .error .assertionError := by
  constructor
  · norm_num [forward, forwardScales, forwardStep, scaleIdx, lookupEuclid, firstArgmin,
      sqDistQ, sqSum, dotQ, rowsOf, cInterp, planeMean, bincountQ, embedToTensor,
      castF32, zerosLike, Tensor4.numel, tadd, tsub, mseQ, listMean, concreteOps, qTiny, fTiny,
      emaUpdateRow, List.range_succ, List.min?, List.findIdx, List.findIdx.go,
      List.count_cons, List.count_nil, Bool.cond_decide, List.replicate_succ,
      List.zipWith_cons_cons, List.sum_cons]
  · intro h
    injection h with h'
    exact PErr.noConfusion h'

/-- Claim C6, amended: when the effective scale pyramid's final entry differs
from the input resolution, `f_to_idxBl_or_fhat` fails immediately with an
assertion failure (before any scale is processed), and `forward` also fails
fatally with no partial result — but through a runtime shape error raised at
the final scale, not through an assertion. -/
theorem C6_shape_mismatch_fatal :
    (∀ (ops : Ops) (q : VQ) (f : Tensor4) (toFhat : Bool) (vpnOpt : Option (List ℕ)) (pl : ℕ),
      (effPatch q vpnOpt).getLast? = some pl → ¬ (pl = f.nH ∧ pl = f.nW) →
      fToIdxBlOrFhat ops q f toFhat vpnOpt = .error .assertionError) ∧
    (∀ (ops : Ops) (q : VQ) (training distInit : Bool) (f : Tensor4) (retU : Bool)
      (ema0 : List (List ℚ)) (rh0 : ℕ) (pl : ℕ),
      OpsWF ops → q.cvae = f.nC → f.data.length = f.nB * f.nC * (f.nH * f.nW) →
      q.vPatchNums.getLast? = some pl → ¬ (pl = f.nH ∧ pl = f.nW) →
      forward ops q training distInit f retU ema0 rh0 = .error .runtimeError) := by
  constructor
  · intro ops q f toFhat vpnOpt pl hl hne
    simp only [fToIdxBlOrFhat, hl]
    rw [if_neg hne]
  · intro ops q training distInit f retU ema0 rh0 pl hw hc hlen hl hne
    have hnn : q.vPatchNums ≠ [] := by
      intro h
      rw [h] at hl
      simp at hl
    have herr := forwardScales_err ops q training distInit (castF32 f).data
      f.nB f.nC f.nH f.nW q.vPatchNums.length hw hc q.vPatchNums 0
      { fRest := castF32 f, fHat := zerosLike (castF32 f),
        vocabHit := List.replicate q.vocabSize 0, lossAcc := 0,
        ema := ema0, recordHit := rh0 }
      (by simp)
      (fun pl' hl' => by
        rw [hl] at hl'
        rw [← Option.some.inj hl']
        exact hne)
      hnn (initFInv q f ema0 rh0 hlen)
    have hH : (castF32 f).nH = f.nH := castF32_nH f
    have hW : (castF32 f).nW = f.nW := castF32_nW f
    rw [← hH, ← hW] at herr
    simp only [forward, herr]

/-- Witness for the amended C6: both entry points evaluated on a concrete
mismatched input (pyramid `[2]` against a 1x1 resolution). -/
theorem C6_witness :
    fToIdxBlOrFhat concreteOps { qTiny with vPatchNums := [2] } fTiny true none =
      .error .assertionError ∧
    forward concreteOps { qTiny with vPatchNums := [2] } true false fTiny false [[0, 0]] 0 =
      .error .runtimeError := by
  constructor
  · exact C6_shape_mismatch_fatal.1 concreteOps { qTiny with vPatchNums := [2] } fTiny true none 2
      (by rfl) (by norm_num [fTiny])
  · exact C6_shape_mismatch_fatal.2 concreteOps { qTiny with vPatchNums := [2] } true false
      fTiny false [[0, 0]] 0 2 concreteOpsWF (by rfl) (by rfl) (by rfl)
      (by norm_num [fTiny])

/-- Counterexample to claim C3 as stated: with identity refinement and
mean-plane interpolation, `f_hat = 0` (at 2x2) and a new contribution
`h = 4` (at 1x1), `get_next_autoregressive_input` accumulates to
`f_hat = [4,4,4,4]`, but `get_next_mask_input` leaves its `f_hat` buffer at
zero and returns `[0]` (the downsampled un-accumulated `f_hat`), not `[4]`
(the downsample of the accumulated reconstruction the claim predicts). -/
theorem C3_counterexample :
    getNextMaskInput concreteOps qTwo 0 2 ⟨1, 1, 2, 2, DType.float32, [0, 0, 0, 0]⟩
        ⟨1, 1, 1, 1, DType.float32, [4]⟩ =
      (⟨1, 1, 2, 2, DType.float32, [0, 0, 0, 0]⟩,
       ⟨1, 1, 1, 1, DType.float32, [0]⟩, ⟨1, 1, 1, 1, DType.float32, [4]⟩) ∧
    (getNextAutoregressiveInput concreteOps qTwo 0 2 ⟨1, 1, 2, 2, DType.float32, [0, 0, 0, 0]⟩
        ⟨1, 1, 1, 1, DType.float32, [4]⟩).1 = ⟨1, 1, 2, 2, DType.float32, [4, 4, 4, 4]⟩ ∧
    cInterp ⟨1, 1, 2, 2, DType.float32, [4, 4, 4, 4]⟩ 1 1 = ⟨1, 1, 1, 1, DType.float32, [4]⟩ ∧
    (⟨1, 1, 1, 1, DType.float32, [0]⟩ : Tensor4) ≠ ⟨1, 1, 1, 1, DType.float32, [4]⟩ := by
  refine ⟨?_, ?_, ?_, ?_⟩
  · norm_num [getNextMaskInput, concreteOps, qTwo, cInterp, planeMean, List.range_succ]
  · norm_num [getNextAutoregressiveInput, concreteOps, qTwo, cInterp, planeMean, tadd,
      List.range_succ, List.replicate_succ, List.zipWith_cons_cons]
  · norm_num [cInterp, planeMean, List.range_succ]
  · intro h
    have := congrArg Tensor4.data h
    norm_num at this

/-- Claim C3, amended: `get_next_mask_input` computes the same refined,
bicubic-upsampled contribution as `get_next_autoregressive_input` (it is
recoverable as that function's updated `f_hat` minus the incoming `f_hat`),
but it does not accumulate it into `f_hat`: the buffer is returned unchanged,
and the two returned values are the *incoming* running reconstruction and the
new contribution, each area-downsampled to the current scale `si`'s
resolution. -/
theorem C3_mask_vs_autoregressive (ops : Ops) (q : VQ) (si sn : ℕ) (fHat h : Tensor4)
    (hw : OpsWF ops) (hsi : si ≠ sn - 1)
    (hB : fHat.nB = h.nB) (hC : fHat.nC = h.nC)
    (hH : fHat.nH = q.vPatchNums.getLast?.getD 0)
    (hW : fHat.nW = q.vPatchNums.getLast?.getD 0)
    (hD : fHat.dt = h.dt)
    (hL : fHat.data.length = fHat.nB * fHat.nC * (fHat.nH * fHat.nW)) :
    getNextMaskInput ops q si sn fHat h =
      (fHat, ops.interpArea fHat (q.vPatchNums.getD si 0) (q.vPatchNums.getD si 0),
       ops.interpArea (tsub (getNextAutoregressiveInput ops q si sn fHat h).1 fHat)
         (q.vPatchNums.getD si 0) (q.vPatchNums.getD si 0)) := by
  have hAReq : (getNextAutoregressiveInput ops q si sn fHat h).1 =
      tadd fHat (ops.phi ((si : ℚ) / ((sn : ℚ) - 1))
        (ops.interpBicubic h (q.vPatchNums.getLast?.getD 0) (q.vPatchNums.getLast?.getD 0))) := by
    simp only [getNextAutoregressiveInput, if_pos hsi]
  have hB2 : fHat.nB = (ops.phi ((si : ℚ) / ((sn : ℚ) - 1))
      (ops.interpBicubic h (q.vPatchNums.getLast?.getD 0) (q.vPatchNums.getLast?.getD 0))).nB := by
    rw [hw.phiB, hw.bicB]; exact hB
  have hC2 : fHat.nC = (ops.phi ((si : ℚ) / ((sn : ℚ) - 1))
      (ops.interpBicubic h (q.vPatchNums.getLast?.getD 0) (q.vPatchNums.getLast?.getD 0))).nC := by
    rw [hw.phiC, hw.bicC]; exact hC
  have hH2 : fHat.nH = (ops.phi ((si : ℚ) / ((sn : ℚ) - 1))
      (ops.interpBicubic h (q.vPatchNums.getLast?.getD 0) (q.vPatchNums.getLast?.getD 0))).nH := by
    rw [hw.phiH, hw.bicH]; exact hH
  have hW2 : fHat.nW = (ops.phi ((si : ℚ) / ((sn : ℚ) - 1))
      (ops.interpBicubic h (q.vPatchNums.getLast?.getD 0) (q.vPatchNums.getLast?.getD 0))).nW := by
    rw [hw.phiW, hw.bicW]; exact hW
  have hD2 : fHat.dt = (ops.phi ((si : ℚ) / ((sn : ℚ) - 1))
      (ops.interpBicubic h (q.vPatchNums.getLast?.getD 0) (q.vPatchNums.getLast?.getD 0))).dt := by
    rw [hw.phiD, hw.bicD]; exact hD
  have hlen : fHat.data.length = (ops.phi ((si : ℚ) / ((sn : ℚ) - 1))
      (ops.interpBicubic h (q.vPatchNums.getLast?.getD 0) (q.vPatchNums.getLast?.getD 0))).data.length := by
    rw [hw.phiLen, hw.bicLen, hL, hB, hC, hH, hW]
  have hsub : tsub (tadd fHat (ops.phi ((si : ℚ) / ((sn : ℚ) - 1))
      (ops.interpBicubic h (q.vPatchNums.getLast?.getD 0) (q.vPatchNums.getLast?.getD 0)))) fHat =
      ops.phi ((si : ℚ) / ((sn : ℚ) - 1))
        (ops.interpBicubic h (q.vPatchNums.getLast?.getD 0) (q.vPatchNums.getLast?.getD 0)) := by
    simp only [tadd, tsub]
    rw [zip_add_sub_cancel _ _ hlen, hB2, hC2, hH2, hW2, hD2]
  simp only [getNextMaskInput]
  rw [hAReq, hsub]

/-- Witness for the amended C3 at the two-scale quantizer with a concrete
zero reconstruction and a constant contribution. -/
theorem C3_witness :
    getNextMaskInput concreteOps qTwo 0 2 ⟨1, 1, 2, 2, DType.float32, [0, 0, 0, 0]⟩
        ⟨1, 1, 1, 1, DType.float32, [4]⟩ =
      (⟨1, 1, 2, 2, DType.float32, [0, 0, 0, 0]⟩,
       concreteOps.interpArea ⟨1, 1, 2, 2, DType.float32, [0, 0, 0, 0]⟩
         (qTwo.vPatchNums.getD 0 0) (qTwo.vPatchNums.getD 0 0),
       concreteOps.interpArea
         (tsub (getNextAutoregressiveInput concreteOps qTwo 0 2
           ⟨1, 1, 2, 2, DType.float32, [0, 0, 0, 0]⟩ ⟨1, 1, 1, 1, DType.float32, [4]⟩).1
           ⟨1, 1, 2, 2, DType.float32, [0, 0, 0, 0]⟩)
         (qTwo.vPatchNums.getD 0 0) (qTwo.vPatchNums.getD 0 0)) :=
  C3_mask_vs_autoregressive concreteOps qTwo 0 2
    ⟨1, 1, 2, 2, DType.float32, [0, 0, 0, 0]⟩ ⟨1, 1, 1, 1, DType.float32, [4]⟩
    concreteOpsWF (by norm_num) rfl rfl rfl rfl rfl rfl

/-- Slicing a flattened list of lists at the cumulative offset of block `k`
recovers block `k`. -/
theorem flatten_slice {α : Type} : ∀ (ls : List (List α)) (k : ℕ), k < ls.length →
    ((ls.flatten.drop (((ls.take k).map List.length).sum)).take ((ls.getD k []).length)) =
      ls.getD k []
  | [], k, h => by simp at h
  | l :: ls, 0, _ => by
    simp only [List.take_zero, List.map_nil, List.sum_nil, List.flatten_cons,
      List.drop_zero, List.getD_cons_zero]
    exact List.take_left l ls.flatten
  | l :: ls, k + 1, h => by
    simp only [List.take_succ_cons, List.map_cons, List.sum_cons, List.flatten_cons,
      List.getD_cons_succ]
    rw [List.drop_append]
    exact flatten_slice ls k (by simpa using h)

theorem getD_take_of_lt {α : Type} (l : List α) (n k : ℕ) (d : α) (h : k < n) :
    (l.take n).getD k d = l.getD k d := by
  simp [List.getD, List.get?_eq_getElem?, List.getElem?_take_of_lt h]

theorem nsSegsAux_length (ops : Ops) (q : VQ) (gt : List (List ℕ)) (b hh sn : ℕ) :
    ∀ (n si : ℕ) (fhat : Tensor4), (nsSegsAux ops q gt b hh sn n si fhat).length = n
  | 0, _, _ => rfl
  | n + 1, si, fhat => by
    simp only [nsSegsAux, List.length_cons]
    rw [nsSegsAux_length ops q gt b hh sn n (si + 1)]

theorem nsSegsAux_dims (ops : Ops) (q : VQ) (gt : List (List ℕ)) (b hh sn : ℕ)
    (hw : OpsWF ops) :
    ∀ (n k si : ℕ) (fhat : Tensor4), k < n →
      ((nsSegsAux ops q gt b hh sn n si fhat).getD k ⟨0, 0, 0, 0, DType.float32, []⟩).nH =
          q.vPatchNums.getD (si + k + 1) 0 ∧
        ((nsSegsAux ops q gt b hh sn n si fhat).getD k ⟨0, 0, 0, 0, DType.float32, []⟩).nW =
          q.vPatchNums.getD (si + k + 1) 0
  | 0, k, si, fhat, h => by omega
  | n + 1, 0, si, fhat, _ => by
    simp only [nsSegsAux, List.getD_cons_zero]
    exact ⟨hw.areaH _ _ _, hw.areaW _ _ _⟩
  | n + 1, k + 1, si, fhat, h => by
    simp only [nsSegsAux, List.getD_cons_succ]
    have := nsSegsAux_dims ops q gt b hh sn hw n k (si + 1)
      (tadd fhat (ops.phi ((si : ℚ) / ((sn : ℚ) - 1))
        (ops.interpBicubic (embedToTensor q.cvae q.embedding (gt.getD si []) b
          (q.vPatchNums.getD si 0)) hh hh))) (by omega)
    have harith : si + 1 + k + 1 = si + (k + 1) + 1 := by omega
    rw [harith] at this
    exact this

theorem nsSegsAux_take_congr (ops : Ops) (q : VQ) (b hh sn : ℕ)
    (gt gt' : List (List ℕ)) :
    ∀ (n k si : ℕ) (fhat : Tensor4),
      (∀ j, j < si + k → gt.getD j [] = gt'.getD j []) →
      (nsSegsAux ops q gt b hh sn n si fhat).take k =
        (nsSegsAux ops q gt' b hh sn n si fhat).take k
  | 0, k, si, fhat, _ => by simp [nsSegsAux]
  | n + 1, 0, si, fhat, _ => by simp
  | n + 1, k + 1, si, fhat, hag => by
    have hgt : gt.getD si [] = gt'.getD si [] := hag si (by omega)
    simp only [nsSegsAux, List.take_succ_cons]
    rw [hgt]
    congr 1
    exact nsSegsAux_take_congr ops q b hh sn gt gt' n k (si + 1) _
      (fun j hj => hag j (by omega))

theorem tokensOf_length (t : Tensor4) (bi : ℕ) :
    (tokensOf t bi).length = t.nH * t.nW := by
  simp [tokensOf]

/-- Claim C7: the segment of `idxBl_to_ns_input`'s concatenated output that
serves as the query for scale `i` (tokens `nsOffset i` up to
`nsOffset i + v_i * v_i` of each batch row) is unchanged under any
modification of the ground-truth indices of scales `i+1` and later: two runs
whose ground-truth index lists agree on scales `0 .. i` produce the same
segment. -/
theorem C7_teacher_forcing_causal (ops : Ops) (q : VQ) (b : ℕ)
    (gt gt' : List (List ℕ)) (bi i : ℕ)
    (hw : OpsWF ops) (h1 : 1 ≤ i) (h2 : i < q.vPatchNums.length)
    (hagree : ∀ j, j ≤ i → gt.getD j [] = gt'.getD j []) :
    ((nsRow ops q b gt bi).drop (nsOffset q i)).take
        (q.vPatchNums.getD i 0 * q.vPatchNums.getD i 0) =
      ((nsRow ops q b gt' bi).drop (nsOffset q i)).take
        (q.vPatchNums.getD i 0 * q.vPatchNums.getD i 0) := by
  have hslice : ∀ g : List (List ℕ), (∀ j, j ≤ i → g.getD j [] = gt.getD j []) →
      ((nsRow ops q b g bi).drop (nsOffset q i)).take
          (q.vPatchNums.getD i 0 * q.vPatchNums.getD i 0) =
        tokensOf ((nsSegs ops q b g).getD (i - 1) ⟨0, 0, 0, 0, DType.float32, []⟩) bi := by
    intro g hg
    have hlseg : (nsSegs ops q b g).length = q.vPatchNums.length - 1 := by
      unfold nsSegs
      exact nsSegsAux_length ops q g b (q.vPatchNums.getLast?.getD 0) q.vPatchNums.length
        (q.vPatchNums.length - 1) 0 _
    have hik : i - 1 < (nsSegs ops q b g).length := by omega
    have hdims := nsSegsAux_dims ops q g b (q.vPatchNums.getLast?.getD 0)
      q.vPatchNums.length hw (q.vPatchNums.length - 1) (i - 1) 0
      (nsInit q b (q.vPatchNums.getLast?.getD 0)) (by omega)
    have hdims' : ((nsSegs ops q b g).getD (i - 1) ⟨0, 0, 0, 0, DType.float32, []⟩).nH =
        q.vPatchNums.getD i 0 ∧
        ((nsSegs ops q b g).getD (i - 1) ⟨0, 0, 0, 0, DType.float32, []⟩).nW =
        q.vPatchNums.getD i 0 := by
      unfold nsSegs
      have : 0 + (i - 1) + 1 = i := by omega
      rw [this] at hdims
      exact hdims
    set mp := (nsSegs ops q b g).map (fun t => tokensOf t bi) with hmp
    have hmpl : mp.length = q.vPatchNums.length - 1 := by
      rw [hmp, List.length_map, hlseg]
    have hmpik : i - 1 < mp.length := by omega
    have hgetD : mp.getD (i - 1) [] =
        tokensOf ((nsSegs ops q b g).getD (i - 1) ⟨0, 0, 0, 0, DType.float32, []⟩) bi := by
      rw [hmp, List.getD_eq_getElem _ [] hmpik, List.getElem_map,
        List.getD_eq_getElem _ _ hik]
    have hofs : ((mp.take (i - 1)).map List.length).sum = nsOffset q i := by
      have hmt : (mp.take (i - 1)).map List.length =
          (List.range (i - 1)).map (fun j =>
            q.vPatchNums.getD (j + 1) 0 * q.vPatchNums.getD (j + 1) 0) := by
        apply List.ext_getElem
        · simp only [List.length_map, List.length_take, List.length_range]
          omega
        · intro j hj1 hj2
          simp only [List.length_map, List.length_take] at hj1
          have hjlt : j < i - 1 := by omega
          have hjm : j < mp.length := by omega
          have hjs : j < (nsSegs ops q b g).length := by omega
          simp only [List.getElem_map, List.getElem_take, List.getElem_range]
          have hd := nsSegsAux_dims ops q g b (q.vPatchNums.getLast?.getD 0)
            q.vPatchNums.length hw (q.vPatchNums.length - 1) j 0
            (nsInit q b (q.vPatchNums.getLast?.getD 0)) (by omega)
          have h0j : (0 : ℕ) + j + 1 = j + 1 := by omega
          rw [h0j] at hd
          simp only [hmp, List.getElem_map]
          rw [tokensOf_length]
          have hds : (nsSegs ops q b g)[j] =
              (nsSegs ops q b g).getD j ⟨0, 0, 0, 0, DType.float32, []⟩ := by
            rw [List.getD_eq_getElem _ _ hjs]
          rw [hds]
          unfold nsSegs
          rw [hd.1, hd.2]
      rw [hmt, nsOffset]
    have htk : (mp.getD (i - 1) []).length =
        q.vPatchNums.getD i 0 * q.vPatchNums.getD i 0 := by
      rw [hgetD, tokensOf_length, hdims'.1, hdims'.2]
    have hfl := flatten_slice mp (i - 1) hmpik
    rw [hofs, htk] at hfl
    rw [nsRow, ← hmp, hfl, hgetD]
  have hg1 : ∀ j, j ≤ i → gt.getD j [] = gt.getD j [] := fun _ _ => rfl
  have hg2 : ∀ j, j ≤ i → gt'.getD j [] = gt.getD j [] := fun j hj => (hagree j hj).symm
  rw [hslice gt hg1, hslice gt' hg2]
  have hseg : (nsSegs ops q b gt).take i = (nsSegs ops q b gt').take i := by
    unfold nsSegs
    exact nsSegsAux_take_congr ops q b (q.vPatchNums.getLast?.getD 0) q.vPatchNums.length
      gt gt' (q.vPatchNums.length - 1) i 0 _ (fun j hj => hagree j (by omega))
  have hgd : (nsSegs ops q b gt).getD (i - 1) ⟨0, 0, 0, 0, DType.float32, []⟩ =
      (nsSegs ops q b gt').getD (i - 1) ⟨0, 0, 0, 0, DType.float32, []⟩ := by
    have h3 : i - 1 < i := by omega
    calc (nsSegs ops q b gt).getD (i - 1) ⟨0, 0, 0, 0, DType.float32, []⟩
        = ((nsSegs ops q b gt).take i).getD (i - 1) ⟨0, 0, 0, 0, DType.float32, []⟩ :=
          (getD_take_of_lt _ i (i - 1) _ h3).symm
      _ = ((nsSegs ops q b gt').take i).getD (i - 1) ⟨0, 0, 0, 0, DType.float32, []⟩ := by
          rw [hseg]
      _ = (nsSegs ops q b gt').getD (i - 1) ⟨0, 0, 0, 0, DType.float32, []⟩ :=
          getD_take_of_lt _ i (i - 1) _ h3
  rw [hgd]

/-- Witness for C7 with two concrete ground-truth lists that agree on scales
0 and 1 of the two-scale pyramid and differ afterwards. -/
theorem C7_witness :
    ((nsRow concreteOps qTwo 1 [[0], [0, 1, 1, 0], [5]] 0).drop (nsOffset qTwo 1)).take
        (qTwo.vPatchNums.getD 1 0 * qTwo.vPatchNums.getD 1 0) =
      ((nsRow concreteOps qTwo 1 [[0], [0, 1, 1, 0], [7]] 0).drop (nsOffset qTwo 1)).take
        (qTwo.vPatchNums.getD 1 0 * qTwo.vPatchNums.getD 1 0) :=
  C7_teacher_forcing_causal concreteOps qTwo 1 [[0], [0, 1, 1, 0], [5]]
    [[0], [0, 1, 1, 0], [7]] 0 1 concreteOpsWF (by norm_num) (by norm_num [qTwo])
    (by intro j hj; interval_cases j <;> rfl)

theorem maskLoop_idx (ops : Ops) (q : VQ) (gt : List (List ℕ)) (b hh sn : ℕ) (p : ℚ) :
    ∀ (n k si curl : ℕ), k < n →
      (maskLoop ops q gt b hh sn p n si curl).2.getD k [] =
        (ops.multinomial (q.vPatchNums.getD (si + k) 0 * q.vPatchNums.getD (si + k) 0)
          (Nat.ceil (((q.vPatchNums.getD (si + k) 0 * q.vPatchNums.getD (si + k) 0 : ℕ) : ℚ) * p))).map
          (· + (curl + ((List.range k).map (fun m =>
            q.vPatchNums.getD (si + m) 0 * q.vPatchNums.getD (si + m) 0)).sum))
  | 0, _, _, _, h => by omega
  | n + 1, 0, si, curl, _ => by
    simp only [maskLoop, List.getD_cons_zero, Nat.add_zero, List.range_zero,
      List.map_nil, List.sum_nil]
  | n + 1, k + 1, si, curl, h => by
    simp only [maskLoop, List.getD_cons_succ]
    rw [maskLoop_idx ops q gt b hh sn p n k (si + 1)
      (curl + q.vPatchNums.getD si 0 * q.vPatchNums.getD si 0) (by omega)]
    have h1 : si + 1 + k = si + (k + 1) := by omega
    rw [h1]
    have h2 : curl + q.vPatchNums.getD si 0 * q.vPatchNums.getD si 0 +
        ((List.range k).map (fun m =>
          q.vPatchNums.getD (si + 1 + m) 0 * q.vPatchNums.getD (si + 1 + m) 0)).sum =
        curl + ((List.range (k + 1)).map (fun m =>
          q.vPatchNums.getD (si + m) 0 * q.vPatchNums.getD (si + m) 0)).sum := by
      rw [List.range_succ_eq_map, List.map_cons, List.sum_cons, List.map_map]
      have h3 : ((List.range k).map ((fun m =>
          q.vPatchNums.getD (si + m) 0 * q.vPatchNums.getD (si + m) 0) ∘ Nat.succ)).sum =
          ((List.range k).map (fun m =>
            q.vPatchNums.getD (si + 1 + m) 0 * q.vPatchNums.getD (si + 1 + m) 0)).sum := by
        refine congrArg List.sum (List.map_congr_left (fun m _ => ?_))
        have h4 : si + Nat.succ m = si + 1 + m := by omega
        simp only [Function.comp_apply, h4]
      rw [h3]
      simp only [Nat.add_zero]
      omega
    rw [h2]

theorem maskLoop_seg (ops : Ops) (q : VQ) (gt : List (List ℕ)) (b hh sn : ℕ) (p : ℚ) :
    ∀ (n k si curl : ℕ), k < n →
      (maskLoop ops q gt b hh sn p n si curl).1.getD k ⟨0, 0, 0, 0, DType.float32, []⟩ =
        ops.interpArea (ops.phi (((si + k : ℕ) : ℚ) / ((sn : ℚ) - 1))
          (ops.interpBicubic (embedToTensor q.cvae q.embedding (gt.getD (si + k) []) b
            (q.vPatchNums.getD (si + k) 0)) hh hh))
          (q.vPatchNums.getD (si + k) 0) (q.vPatchNums.getD (si + k) 0)
  | 0, _, _, _, h => by omega
  | n + 1, 0, si, curl, _ => by
    simp only [maskLoop, List.getD_cons_zero, Nat.add_zero]
  | n + 1, k + 1, si, curl, h => by
    simp only [maskLoop, List.getD_cons_succ]
    rw [maskLoop_seg ops q gt b hh sn p n k (si + 1)
      (curl + q.vPatchNums.getD si 0 * q.vPatchNums.getD si 0) (by omega)]
    have h1 : si + 1 + k = si + (k + 1) := by omega
    rw [h1]

/-- Claim C8: for a mask fraction `p ∈ [0, 1]` and every scale `si ≥ 1` of the
pyramid, `idxBl_to_mask_input` records exactly `ceil(pn*pn*p)` masked
positions for that scale, all distinct, each offset by the cumulative token
count of the prior masked scales so that it falls inside the scale's reserved
range of the concatenated sequence; and the scale's contribution is built
from that scale's own ground-truth embedding only (changing any other
scale's indices leaves it unchanged). -/
theorem C8_mask_coverage (ops : Ops) (q : VQ) (b : ℕ) (gt : List (List ℕ)) (p : ℚ) (si : ℕ)
    (hs : SamplerWF ops) (hp0 : 0 ≤ p) (hp1 : p ≤ 1)
    (h1 : 1 ≤ si) (h2 : si < q.vPatchNums.length) :
    ((maskIdxs ops q gt p).getD (si - 1) []).length =
      Nat.ceil (((q.vPatchNums.getD si 0 * q.vPatchNums.getD si 0 : ℕ) : ℚ) * p) ∧
    ((maskIdxs ops q gt p).getD (si - 1) []).Nodup ∧
    (∀ x ∈ (maskIdxs ops q gt p).getD (si - 1) [],
      maskCum q si ≤ x ∧ x < maskCum q si + q.vPatchNums.getD si 0 * q.vPatchNums.getD si 0) ∧
    (∀ gt' : List (List ℕ), gt'.getD si [] = gt.getD si [] →
      (maskSegs ops q b gt' p).getD (si - 1) ⟨0, 0, 0, 0, DType.float32, []⟩ =
        (maskSegs ops q b gt p).getD (si - 1) ⟨0, 0, 0, 0, DType.float32, []⟩) := by
  have hsi : 1 + (si - 1) = si := by omega
  have hidx : (maskIdxs ops q gt p).getD (si - 1) [] =
      (ops.multinomial (q.vPatchNums.getD si 0 * q.vPatchNums.getD si 0)
        (Nat.ceil (((q.vPatchNums.getD si 0 * q.vPatchNums.getD si 0 : ℕ) : ℚ) * p))).map
        (· + maskCum q si) := by
    unfold maskIdxs
    rw [maskLoop_idx ops q gt 0 (q.vPatchNums.getLast?.getD 0) q.vPatchNums.length p
      (q.vPatchNums.length - 1) (si - 1) 1 0 (by omega), hsi]
    have hc : (0 : ℕ) + ((List.range (si - 1)).map (fun m =>
        q.vPatchNums.getD (1 + m) 0 * q.vPatchNums.getD (1 + m) 0)).sum = maskCum q si := by
      rw [Nat.zero_add, maskCum]
      refine congrArg List.sum (List.map_congr_left (fun m _ => ?_))
      have : 1 + m = m + 1 := by omega
      rw [this]
    rw [hc]
  have hkn : Nat.ceil (((q.vPatchNums.getD si 0 * q.vPatchNums.getD si 0 : ℕ) : ℚ) * p) ≤
      q.vPatchNums.getD si 0 * q.vPatchNums.getD si 0 := by
    rw [Nat.ceil_le]
    calc ((q.vPatchNums.getD si 0 * q.vPatchNums.getD si 0 : ℕ) : ℚ) * p
        ≤ ((q.vPatchNums.getD si 0 * q.vPatchNums.getD si 0 : ℕ) : ℚ) * 1 :=
          mul_le_mul_of_nonneg_left hp1 (by positivity)
      _ = ((q.vPatchNums.getD si 0 * q.vPatchNums.getD si 0 : ℕ) : ℚ) := mul_one _
  obtain ⟨hsl, hsn, hsb⟩ := hs (q.vPatchNums.getD si 0 * q.vPatchNums.getD si 0)
    (Nat.ceil (((q.vPatchNums.getD si 0 * q.vPatchNums.getD si 0 : ℕ) : ℚ) * p)) hkn
  refine ⟨?_, ?_, ?_, ?_⟩
  · rw [hidx, List.length_map, hsl]
  · rw [hidx]
    exact hsn.map (add_left_injective (maskCum q si))
  · intro x hx
    rw [hidx] at hx
    obtain ⟨y, hy, hxy⟩ := List.mem_map.mp hx
    have := hsb y hy
    omega
  · intro gt' hgt'
    unfold maskSegs
    rw [maskLoop_seg ops q gt' b (q.vPatchNums.getLast?.getD 0) q.vPatchNums.length p
        (q.vPatchNums.length - 1) (si - 1) 1 0 (by omega),
      maskLoop_seg ops q gt b (q.vPatchNums.getLast?.getD 0) q.vPatchNums.length p
        (q.vPatchNums.length - 1) (si - 1) 1 0 (by omega), hsi, hgt']

/-- Witness for C8 on the pyramid `[1, 4]` with `p = 1/2`: scale 1 has 16
tokens and the theorem applies with 8 masked positions. -/
theorem C8_witness :
    ((maskIdxs concreteOps { qTiny with vPatchNums := [1, 4] } [[0], [1]] (1 / 2)).getD 0 []).length =
      Nat.ceil (((({ qTiny with vPatchNums := [1, 4] } : VQ).vPatchNums.getD 1 0 *
        ({ qTiny with vPatchNums := [1, 4] } : VQ).vPatchNums.getD 1 0 : ℕ) : ℚ) * (1 / 2)) ∧
    ((maskIdxs concreteOps { qTiny with vPatchNums := [1, 4] } [[0], [1]] (1 / 2)).getD 0 []).Nodup ∧
    (∀ x ∈ (maskIdxs concreteOps { qTiny with vPatchNums := [1, 4] } [[0], [1]] (1 / 2)).getD 0 [],
      maskCum { qTiny with vPatchNums := [1, 4] } 1 ≤ x ∧
      x < maskCum { qTiny with vPatchNums := [1, 4] } 1 +
        ({ qTiny with vPatchNums := [1, 4] } : VQ).vPatchNums.getD 1 0 *
        ({ qTiny with vPatchNums := [1, 4] } : VQ).vPatchNums.getD 1 0) ∧
    (∀ gt' : List (List ℕ), gt'.getD 1 [] = ([[0], [1]] : List (List ℕ)).getD 1 [] →
      (maskSegs concreteOps { qTiny with vPatchNums := [1, 4] } 1 gt' (1 / 2)).getD 0
          ⟨0, 0, 0, 0, DType.float32, []⟩ =
        (maskSegs concreteOps { qTiny with vPatchNums := [1, 4] } 1 [[0], [1]] (1 / 2)).getD 0
          ⟨0, 0, 0, 0, DType.float32, []⟩) :=
  C8_mask_coverage concreteOps { qTiny with vPatchNums := [1, 4] } 1 [[0], [1]] (1 / 2) 1
    concreteSamplerWF (by norm_num) (by norm_num) (by norm_num) (by norm_num)

/-- Claim C9: in the partially-shared policy with `K` units the tick array is
`linspace (1/(3K)) (1-1/(3K)) K` for `K = 4` (hence equals
`linspace (1/12) (11/12) 4`) and `linspace (1/(2K)) (1-1/(2K)) K` otherwise,
and unit lookup returns the index of the tick nearest to the query, ties
broken by the lowest index; being a pure function of `(K, t)`, repeated
queries at the same position (such as `t = 1/2`, `K = 4`, which yields unit
1) always return the same unit index. -/
theorem C9_phiTicks_nearest :
    phiTicks 4 = linspace (1 / 12) (11 / 12) 4 ∧
    (∀ k : ℕ, k ≠ 4 →
      phiTicks k = linspace (1 / (2 * (k : ℚ))) (1 - 1 / (2 * (k : ℚ))) k) ∧
    (∀ k : ℕ, ∀ t : ℚ, 0 < k →
      phiSharedIdx k t < k ∧
      (∀ j, j < k → |(phiTicks k).getD (phiSharedIdx k t) 0 - t| ≤ |(phiTicks k).getD j 0 - t|) ∧
      (∀ j, j < phiSharedIdx k t →
        |(phiTicks k).getD (phiSharedIdx k t) 0 - t| < |(phiTicks k).getD j 0 - t|)) ∧
    phiSharedIdx 4 (1 / 2) = 1 := by
  refine ⟨?_, ?_, ?_, ?_⟩
  · norm_num [phiTicks, linspace, List.range_succ]
  · intro k hk
    simp [phiTicks, hk]
  · intro k t hk
    set d := (phiTicks k).map (fun c => |c - t|) with hd
    have hdl : d.length = k := by simp [hd, phiTicks_length]
    have hne : d ≠ [] := by
      intro h
      rw [h] at hdl
      simp at hdl
      omega
    have hidx : phiSharedIdx k t = firstArgmin d := rfl
    have h1 := firstArgmin_lt_length d hne
    have h2 := firstArgmin_spec d hne
    have hget : ∀ j, j < k → d.getD j 0 = |(phiTicks k).getD j 0 - t| := by
      intro j hj
      have hj' : j < (phiTicks k).length := by rw [phiTicks_length]; exact hj
      rw [hd, List.getD_eq_getElem _ 0 (by simpa [phiTicks_length] using hj),
        List.getElem_map, List.getD_eq_getElem _ 0 hj']
    have hlt : phiSharedIdx k t < k := by rw [hidx]; omega
    refine ⟨hlt, ?_, ?_⟩
    · intro j hj
      have := h2.1 j (by omega)
      rwa [← hidx, hget _ hlt, hget _ hj] at this
    · intro j hj
      have := h2.2 j (by rwa [hidx] at hj)
      rwa [← hidx, hget _ hlt, hget _ (lt_trans hj hlt)] at this
  · norm_num [phiSharedIdx, phiTicks, linspace, List.range_succ, firstArgmin, List.min?,
      List.findIdx, List.findIdx.go, Bool.cond_decide, abs_of_nonneg, abs_of_nonpos]

/-- Witness for C9 at `K = 4`, `t = 1/2`: the selected unit index is below 4
and the `K ≠ 4` branch evaluates at `K = 2`. -/
theorem C9_witness :
    phiSharedIdx 4 (1 / 2) < 4 ∧ phiTicks 2 = linspace (1 / 4) (3 / 4) 2 := by
  constructor
  · exact (C9_phiTicks_nearest.2.2.1 4 (1 / 2) (by norm_num)).1
  · have := C9_phiTicks_nearest.2.1 2 (by norm_num)
    rw [this]
    norm_num

end HMAR


